import Mathlib

/-!
Verification of the folder-tree resolution layer of `files.py`.

The central object is the nested function `build_directory_tree` inside
`get_folders`: it reconstructs a directory tree (a mapping between full
slash-separated paths and folder identifiers) from the flat list of folder
records `{id, name, parents}` returned by the Drive API, and `create_folder`,
which consults that mapping.

Python dictionaries are modelled as insertion-ordered association lists with
Python's assignment semantics (updating an existing key keeps its position,
a new key is appended at the end).  Python exceptions are modelled with an
`Except PyError` layer, and the unbounded `while` loop of the source with an
explicit fuel parameter: a result of `none` means the loop has not finished
within the given fuel (for any fuel — divergence).
-/

/-- A folder record as returned by the Drive API listing:
`fields="files(id, name, parents)"`. -/
structure DriveFile where
  id : String
  name : String
  parents : List String
deriving DecidableEq, Repr

/-- Python exceptions raised by the modelled code. -/
inductive PyError where
  | valueError (msg : String)
  | indexError
  | keyError
deriving DecidableEq, Repr

/-- A Python `dict` with string keys and values: an insertion-ordered
association list whose keys are pairwise distinct. -/
abbrev PyDict := List (String × String)

/-- `d[k]` as a total lookup: the value at the (unique) matching key. -/
def dictGet : PyDict → String → Option String
  | [], _ => none
  | kv :: rest, k => if kv.1 = k then some kv.2 else dictGet rest k

/-- `k in d` for a Python dict. -/
def dictContains : PyDict → String → Bool
  | [], _ => false
  | kv :: rest, k => if kv.1 = k then true else dictContains rest k

/-- `d[k] = v`: update in place if the key exists (keeping its position),
otherwise append the new binding at the end. -/
def dictSet : PyDict → String → String → PyDict
  | [], k, v => [(k, v)]
  | kv :: rest, k, v => if kv.1 = k then (k, v) :: rest else kv :: dictSet rest k v

/-- `{v: k for k, v in d.items()}`: fold the items in insertion order,
assigning `inverse[v] = k`; a duplicated value keeps only the last key. -/
def dictInvert (d : PyDict) : PyDict :=
  d.foldl (fun acc kv => dictSet acc kv.2 kv.1) []

/-- The `ids` list of `build_directory_tree`: `ids.append(file['id'])`. -/
def collectIds (files : List DriveFile) : List String :=
  files.map (·.id)

/-- The `parent_ids` list of `build_directory_tree`: every parent id of every
file, first occurrences kept in order (`if parent_id not in parent_ids`). -/
def collectParentIds (files : List DriveFile) : List String :=
  files.foldl
    (fun acc f => f.parents.foldl (fun a p => if p ∈ a then a else a ++ [p]) acc)
    []

/-- The root-detection loop of `build_directory_tree`:

```
for parent_id in parent_ids:
    if parent_id not in ids:
        if len(tree['/']) == 0:
            tree['/'] = parent_id
        elif tree['/'] != parent_id:
            raise ValueError(...)
```
-/
def rootScan (tree : PyDict) (parent_ids ids : List String) : Except PyError PyDict :=
  parent_ids.foldlM
    (fun t p =>
      if p ∈ ids then
        pure t
      else
        match dictGet t "/" with
        | none => throw .keyError
        | some r =>
          if r.length = 0 then
            pure (dictSet t "/" p)
          else if r ≠ p then
            throw (.valueError
              ("Current Root ID is " ++ r ++ ". Another root, " ++ p ++ ", is present."))
          else
            pure t)
    tree

/-- `remainder.remove(file)` for each `file in removals`: Python's
`list.remove` deletes the first occurrence and raises `ValueError` when the
element is absent. -/
def removeAll (remainder removals : List DriveFile) : Except PyError (List DriveFile) :=
  removals.foldlM
    (fun r f =>
      if f ∈ r then pure (r.erase f)
      else throw (.valueError "list.remove(x): x not in list"))
    remainder

/-- The first resolution pass over the file list:

```
for file in remainder:
    if file['parents'][0] == tree['/']:
        tree[file['id']] = f'/{file["name"]}'
        removals.append(file)
```

`file['parents'][0]` raises `IndexError` on an empty parents list, and
`tree['/']` is read afresh at each iteration. -/
def rootPass (tree : PyDict) (files : List DriveFile) :
    Except PyError (PyDict × List DriveFile) :=
  files.foldlM
    (fun acc f =>
      match f.parents with
      | [] => throw .indexError
      | p :: _ =>
        match dictGet acc.1 "/" with
        | none => throw .keyError
        | some r =>
          if p = r then
            pure (dictSet acc.1 f.id ("/" ++ f.name), acc.2 ++ [f])
          else
            pure acc)
    (tree, [])

/-- One pass of the `while` loop body (before the removals are applied):

```
for file in remainder:
    for parent_id in file['parents']:
        if parent_id in tree:
            tree[file['id']] = tree[parent_id] + f'/{file["name"]}'
            removals.append(file)
```

The tree grows during the pass, so a file later in the list may be resolved
through a parent resolved earlier in the same pass. -/
def resolvePass (tree : PyDict) (remainder : List DriveFile) :
    PyDict × List DriveFile :=
  remainder.foldl
    (fun acc f =>
      f.parents.foldl
        (fun acc2 p =>
          match dictGet acc2.1 p with
          | some q => (dictSet acc2.1 f.id (q ++ "/" ++ f.name), acc2.2 ++ [f])
          | none => acc2)
        acc)
    (tree, [])

/-- The `while len(remainder) > 0` loop, with explicit fuel.  `none` models a
loop that has not terminated within `fuel` iterations; the source has no
progress check, so a pass that resolves nothing repeats forever. -/
def fixLoop : Nat → PyDict → List DriveFile → Option (Except PyError PyDict)
  | _, tree, [] => some (.ok tree)
  | 0, _, _ => none
  | fuel + 1, tree, remainder =>
    let step := resolvePass tree remainder
    match removeAll remainder step.2 with
    | .error e => some (.error e)
    | .ok remainder2 => fixLoop fuel step.1 remainder2

/-- The forward tree built by `build_directory_tree` just before the final
inversion: root detection seeded with `tree = {'/': ''}`, then
`parent_ids.remove(tree['/'])` (whose result is unused but whose
`ValueError` is not), the first pass over the files, and the `while` loop. -/
def buildForward (fuel : Nat) (files : List DriveFile) :
    Option (Except PyError PyDict) :=
  let parent_ids := collectParentIds files
  let ids := collectIds files
  match rootScan [("/", "")] parent_ids ids with
  | .error e => some (.error e)
  | .ok tree =>
    match dictGet tree "/" with
    | none => some (.error .keyError)
    | some root =>
      if root ∈ parent_ids then
        match rootPass tree files with
        | .error e => some (.error e)
        | .ok (tree2, removals) =>
          match removeAll files removals with
          | .error e => some (.error e)
          | .ok remainder => fixLoop fuel tree2 remainder
      else
        some (.error (.valueError "list.remove(x): x not in list"))

/-- `build_directory_tree`: the forward tree followed by
`return {v: k for k, v in tree.items()}`. -/
def build_directory_tree (fuel : Nat) (files : List DriveFile) :
    Option (Except PyError PyDict) :=
  (buildForward fuel files).map (fun r => r.map dictInvert)

/-- The root id detected by `build_directory_tree` (the value of `tree['/']`
after the root-detection loop). -/
def detectRoot (files : List DriveFile) : Except PyError String :=
  match rootScan [("/", "")] (collectParentIds files) (collectIds files) with
  | .error e => .error e
  | .ok tree =>
    match dictGet tree "/" with
    | none => .error .keyError
    | some root => .ok root

/-- `constants.MIME_TYPES['folder']`. -/
def folderMimeType : String := "application/vnd.google-apps.folder"

/-- The metadata body passed to `service.files().create`. -/
structure FolderMeta where
  name : String
  mimeType : String
  parents : List String
deriving DecidableEq, Repr

/-- `create_folder`, modelled relative to the mapping `folders` returned by
`get_folders` and an oracle `exec` for the remote creation call.  The result
pairs the Python outcome (`.ok (some id)` on success, `.ok none` when the
`except HttpError` handler returns `None`, `.error` for an uncaught
exception) with the list of creation requests issued. -/
def create_folder (folders : PyDict) (folder parent_folder : String)
    (exec : FolderMeta → Except String String) :
    (Except PyError (Option String)) × List FolderMeta :=
  match dictGet folders parent_folder with
  | some parent_id =>
    let folder_metadata : FolderMeta :=
      { name := folder, mimeType := folderMimeType, parents := [parent_id] }
    match exec folder_metadata with
    | .ok fid => (.ok (some fid), [folder_metadata])
    | .error _ => (.ok none, [folder_metadata])
  | none =>
    (.error (.valueError "The parent folder does not exist in the available folders"),
     [])

/-! ### Concrete inputs used in the analysis -/

/-- The two-record scenario of the spec: `Docs` under the root, `Templates`
under `Docs`. -/
def exTwo : List DriveFile := [⟨"1", "Docs", ["root"]⟩, ⟨"2", "Templates", ["1"]⟩]

/-- A record under the root plus a two-cycle `a → b → a` not reachable from
the root. -/
def exCycle : List DriveFile := [⟨"c", "C", ["R"]⟩, ⟨"a", "A", ["b"]⟩, ⟨"b", "B", ["a"]⟩]

/-- Two roots candidates: a record whose second parent id is unknown. -/
def exTwoParents : List DriveFile := [⟨"1", "A", ["R", "X"]⟩]

/-- The same record with only its first parent. -/
def exOneParent : List DriveFile := [⟨"1", "A", ["R"]⟩]

/-- Two records with the same name under the same parent. -/
def exDupSibling : List DriveFile := [⟨"1", "n", ["R"]⟩, ⟨"2", "n", ["R"]⟩]

/-- A record whose id is the empty string and which is referenced as a
parent, so no parent id is outside the record-id set. -/
def exEmptyId : List DriveFile := [⟨"a", "A", [""]⟩, ⟨"", "B", ["a"]⟩]

/-- A record with an empty display name directly under the root. -/
def exEmptyName : List DriveFile := [⟨"a", "", ["R"]⟩]

/-- A valid single-rooted tree with unique sibling names in which one name
contains the path separator, so two distinct ids share the path `/a/b`. -/
def exSlashName : List DriveFile :=
  [⟨"1", "a", ["R"]⟩, ⟨"2", "a/b", ["R"]⟩, ⟨"3", "b", ["1"]⟩]

/-- The root candidates of a listing: parent ids referenced by some record
but not present among the record ids, in first-occurrence order. -/
def rootCandidates (files : List DriveFile) : List String :=
  (collectParentIds files).filter (fun p => p ∉ collectIds files)

/-- The portion of a record that the spec deems meaningful: its id, its
name, and its first-listed parent id. -/
def firstParentView (f : DriveFile) : String × String × Option String :=
  (f.id, f.name, f.parents.head?)

/-- The intended path (and depth) of a record id in the parent forest: a
record whose single parent is the root sits at `/name` and depth 1; a record
whose single parent is another resolved record extends that record's path.
This is the specification-level meaning against which the imperative
fixpoint is verified. -/
inductive PathAt (files : List DriveFile) (root : String) :
    String → String → Nat → Prop where
  | base (f : DriveFile) (hf : f ∈ files) (hp : f.parents = [root]) :
      PathAt files root f.id ("/" ++ f.name) 1
  | step (f : DriveFile) (pid q : String) (n : Nat) (hf : f ∈ files)
      (hp : f.parents = [pid]) (hq : PathAt files root pid q n) :
      PathAt files root f.id (q ++ "/" ++ f.name) (n + 1)

/-- A valid input in the sense of the spec: distinct ids, a root id that is
referenced but is not a record (and no record id equal to the literal key
`"/"` of the seed entry), every record reachable from the root through
single-parent links (which rules out cycles and dangling references), and at
least one record. -/
structure ValidForest (files : List DriveFile) (root : String) : Prop where
  nodup_ids : (collectIds files).Nodup
  root_not_id : root ∉ collectIds files
  slash_not_id : "/" ∉ collectIds files
  reachable : ∀ f ∈ files, ∃ q n, PathAt files root f.id q n
  ne : files ≠ []

/-- The invariant carried through the `while` loop on a valid forest after
`k` iterations: the tree is the root seed plus correct path entries, its
keys are distinct, records not in the remainder are resolved, the remainder
is a sub-collection of the input, and every remaining record sits at depth
at least `k + 2`. -/
structure LoopInv (files : List DriveFile) (root : String)
    (t : PyDict) (rem : List DriveFile) (k : Nat) : Prop where
  shape : ∃ es, t = ("/", root) :: es ∧ ∀ kv ∈ es, ∃ n, PathAt files root kv.1 kv.2 n
  nkeys : (t.map Prod.fst).Nodup
  resolved : ∀ f ∈ files, f ∉ rem → dictContains t f.id = true
  sub : rem.Sublist files
  deep : ∀ f ∈ rem, ∀ q n, PathAt files root f.id q n → k + 2 ≤ n

/-- The tree shape maintained by the resolution passes on any input: the
seed root entry first, then entries keyed by record ids whose values are
slash-containing strings of length at least two. -/
def RootedShape (files : List DriveFile) (r : String) (t : PyDict) : Prop :=
  ∃ es, t = ("/", r) :: es ∧
    ∀ kv ∈ es, (∃ f ∈ files, kv.1 = f.id) ∧
      ('/' : Char) ∈ kv.2.data ∧ 2 ≤ kv.2.length

/-! ### Theorems -/


theorem cycle_fixLoop_stalls :
    ∀ fuel, fixLoop fuel [("/", "R"), ("c", "/C")]
      [⟨"a", "A", ["b"]⟩, ⟨"b", "B", ["a"]⟩] = none := by
  intro fuel
  induction fuel with
  | zero => rfl
  | succ n ih => exact ih

/-- C1. The claim fails on the code: on a parent-pointer cycle not
reachable from the root (`a → b → a`, with `c` under the root `R`), the
`while` loop of `build_directory_tree` resolves nothing in a pass, has no
progress check, and repeats forever — no `MalformedHierarchy`-style error is
ever raised.  Formally, the fuelled loop returns `none` (non-termination)
for every fuel bound. -/
theorem c1_cycle_diverges :
    ∀ fuel, build_directory_tree fuel exCycle = none := by
  intro fuel
  have h : buildForward fuel exCycle =
      fixLoop fuel [("/", "R"), ("c", "/C")]
        [⟨"a", "A", ["b"]⟩, ⟨"b", "B", ["a"]⟩] := rfl
  unfold build_directory_tree
  rw [h, cycle_fixLoop_stalls]
  rfl

/-- C2. On the spec's two-record scenario the code evaluates to
`{"root": "/", "/Docs": "1", "/Docs/Templates": "2"}`: the root entry comes
out inverted (the root id is the key, `"/"` its value), so the key `"/"` is
absent — contradicting the claimed result `{"/": "root", ...}` and the
`get_folders` docstring (`key: full folder path from root, value: folder
ID`), and defeating `create_folder`'s documented default `parent_folder='/'`
lookup. -/
theorem c2_root_entry_inverted :
    build_directory_tree 2 exTwo =
      some (.ok [("root", "/"), ("/Docs", "1"), ("/Docs/Templates", "2")]) ∧
    dictGet [("root", "/"), ("/Docs", "1"), ("/Docs/Templates", "2")] "/" = none ∧
    dictGet [("root", "/"), ("/Docs", "1"), ("/Docs/Templates", "2")] "root" =
      some "/" :=
  ⟨rfl, rfl, rfl⟩

/-- C3, counterexample. Two records named `n` under the same parent `R`:
resolution does *not* fail — it returns a mapping in which the path `/n`
keeps only the last id (`"2"`), silently losing record `"1"`. -/
theorem c3_duplicate_sibling_no_error :
    build_directory_tree 2 exDupSibling = some (.ok [("R", "/"), ("/n", "2")]) ∧
    "1" ∈ collectIds exDupSibling ∧
    "1" ∉ [("R", "/"), ("/n", "2")].map Prod.snd := by
  refine ⟨rfl, by decide, by decide⟩

/-- C4, counterexample. `exSlashName` is a valid single-rooted tree
(unique ids, one parent per record, each parent the root or another record,
unique sibling names), yet a name containing `/` makes two distinct ids
resolve to the path `/a/b`, and the returned mapping has no entry for record
`"2"` — coverage fails. -/
theorem c4_slash_name_loses_record :
    (collectIds exSlashName).Nodup ∧
    (∀ f ∈ exSlashName, f.parents = ["R"] ∨ f.parents = ["1"]) ∧
    (∀ f ∈ exSlashName, ∀ g ∈ exSlashName,
      f.name = g.name → f.parents = g.parents → f.id = g.id) ∧
    build_directory_tree 4 exSlashName =
      some (.ok [("R", "/"), ("/a", "1"), ("/a/b", "3")]) ∧
    "2" ∈ collectIds exSlashName ∧
    "2" ∉ [("R", "/"), ("/a", "1"), ("/a/b", "3")].map Prod.snd := by
  refine ⟨by decide, by decide, by decide, rfl, by decide, by decide⟩

/-- C5, counterexample. In `exEmptyId` every referenced parent id is
itself a record id, so there are zero root candidates — yet resolution does
not fail: the uninitialized root sentinel `''` coincides with the record id
`""`, the empty string is referenced as a parent, and the run returns a
mapping with `""` treated as the root. -/
theorem c5_zero_candidates_no_error :
    ((collectParentIds exEmptyId).all (fun p => p ∈ collectIds exEmptyId)) = true ∧
    build_directory_tree 3 exEmptyId =
      some (.ok [("", "/"), ("/A", "a"), ("/A/B", "")]) := by
  refine ⟨by decide, rfl⟩

/-- C6, counterexample. On the duplicate-sibling input the resolution
succeeds, the forward tree maps id `"1"` to `/n`, but the returned inverse
maps `/n` back to `"2"` — the two mappings are not inverses of each other. -/
theorem c6_not_inverse_on_collision :
    buildForward 2 exDupSibling =
      some (.ok [("/", "R"), ("1", "/n"), ("2", "/n")]) ∧
    dictGet [("/", "R"), ("1", "/n"), ("2", "/n")] "1" = some "/n" ∧
    dictGet (dictInvert [("/", "R"), ("1", "/n"), ("2", "/n")]) "/n" = some "2" :=
  ⟨rfl, rfl, rfl⟩

/-- C7, counterexample. Permuting the duplicate-sibling input changes the
returned mapping: the colliding path `/n` keeps whichever id was assigned
last, so the two orders give different dictionaries. -/
theorem c7_permutation_changes_result :
    exDupSibling.reverse.Perm exDupSibling ∧
    build_directory_tree 2 exDupSibling = some (.ok [("R", "/"), ("/n", "2")]) ∧
    build_directory_tree 2 exDupSibling.reverse =
      some (.ok [("R", "/"), ("/n", "1")]) := by
  refine ⟨by decide, rfl, rfl⟩

/-- C8, counterexample. `exOneParent` and `exTwoParents` agree on every
record's id, name and first parent id and differ only in a later parent, yet
the first resolves while the second fails: root detection collects *all*
parent ids, so the unknown second parent `X` becomes a second root
candidate. -/
theorem c8_second_parent_changes_result :
    (exOneParent.map fun f => (f.id, f.name, f.parents.head?)) =
      (exTwoParents.map fun f => (f.id, f.name, f.parents.head?)) ∧
    build_directory_tree 2 exOneParent = some (.ok [("R", "/"), ("/A", "1")]) ∧
    build_directory_tree 2 exTwoParents =
      some (.error (.valueError
        "Current Root ID is R. Another root, X, is present.")) := by
  refine ⟨by decide, rfl, rfl⟩

/-- C9, counterexample. A successful resolution in which `"/"` *is* a key
of the returned mapping: a record with an empty name directly under the root
gets path `/`, and the inversion turns that into the entry `("/", "a")`. -/
theorem c9_slash_key_on_empty_name :
    build_directory_tree 2 exEmptyName = some (.ok [("R", "/"), ("/", "a")]) ∧
    dictGet [("R", "/"), ("/", "a")] "/" = some "a" :=
  ⟨rfl, rfl⟩

/-! ### Dictionary lemmas -/

theorem dictContains_iff (d : PyDict) (k : String) :
    dictContains d k = true ↔ k ∈ d.map Prod.fst := by
  induction d with
  | nil => simp [dictContains]
  | cons x xs ih =>
    by_cases hx : x.1 = k
    · rw [dictContains, if_pos hx]
      simp [hx]
    · rw [dictContains, if_neg hx]
      simp only [List.map_cons, List.mem_cons, ih]
      constructor
      · exact fun h => Or.inr h
      · rintro (h | h)
        · exact absurd h.symm hx
        · exact h

theorem dictGet_mem {d : PyDict} {k v : String} (h : dictGet d k = some v) :
    (k, v) ∈ d := by
  induction d with
  | nil => cases h
  | cons x xs ih =>
    by_cases hx : x.1 = k
    · rw [dictGet, if_pos hx] at h
      cases h
      exact List.mem_cons.2 (Or.inl (by rw [← hx]))
    · rw [dictGet, if_neg hx] at h
      exact List.mem_cons.2 (Or.inr (ih h))

theorem dictGet_of_mem {d : PyDict} {k v : String}
    (hnd : (d.map Prod.fst).Nodup) (h : (k, v) ∈ d) :
    dictGet d k = some v := by
  induction d with
  | nil => cases h
  | cons x xs ih =>
    rcases List.mem_cons.1 h with rfl | hx
    · rw [dictGet, if_pos rfl]
    · have hk : ¬ x.1 = k := by
        rintro rfl
        exact (List.nodup_cons.1 hnd).1 (List.mem_map.2 ⟨(x.1, v), hx, rfl⟩)
      rw [dictGet, if_neg hk]
      exact ih (List.nodup_cons.1 hnd).2 hx

theorem dictGet_none_iff (d : PyDict) (k : String) :
    dictGet d k = none ↔ k ∉ d.map Prod.fst := by
  induction d with
  | nil => simp [dictGet]
  | cons x xs ih =>
    by_cases hx : x.1 = k
    · rw [dictGet, if_pos hx]
      simp [hx]
    · rw [dictGet, if_neg hx]
      simp only [List.map_cons, List.mem_cons, ih]
      constructor
      · rintro h (h1 | h2)
        · exact hx h1.symm
        · exact h h2
      · intro h h2
        exact h (Or.inr h2)

theorem dictContains_dictGet (d : PyDict) (k : String) :
    dictContains d k = true ↔ ∃ v, dictGet d k = some v := by
  induction d with
  | nil => simp [dictContains, dictGet]
  | cons x xs ih =>
    by_cases hx : x.1 = k
    · rw [dictContains, if_pos hx, dictGet, if_pos hx]
      simp
    · rw [dictContains, if_neg hx, dictGet, if_neg hx]
      exact ih

theorem dictSet_keys (d : PyDict) (k v : String) :
    (dictSet d k v).map Prod.fst =
      if dictContains d k then d.map Prod.fst else d.map Prod.fst ++ [k] := by
  induction d with
  | nil => simp [dictSet, dictContains]
  | cons x xs ih =>
    by_cases hx : x.1 = k
    · rw [dictSet, if_pos hx, dictContains, if_pos hx]
      simp [hx]
    · rw [dictSet, if_neg hx, dictContains, if_neg hx]
      by_cases hc : dictContains xs k = true
      · simp only [List.map_cons, ih, hc, if_pos, if_true]
      · simp only [Bool.not_eq_true] at hc
        simp [ih, hc]

theorem dictSet_keys_nodup {d : PyDict} {k v : String}
    (h : (d.map Prod.fst).Nodup) :
    ((dictSet d k v).map Prod.fst).Nodup := by
  rw [dictSet_keys]
  by_cases hc : dictContains d k = true
  · rw [if_pos hc]; exact h
  · simp only [Bool.not_eq_true] at hc
    rw [if_neg (by simp [hc])]
    rw [List.nodup_append]
    refine ⟨h, List.nodup_singleton k, ?_⟩
    intro a ha hb
    rw [List.mem_singleton] at hb
    subst hb
    rw [← dictContains_iff] at ha
    rw [hc] at ha
    cases ha

theorem mem_dictSet {d : PyDict} {k v : String} {x : String × String}
    (h : x ∈ dictSet d k v) : x = (k, v) ∨ x ∈ d := by
  induction d with
  | nil =>
    rw [dictSet] at h
    simp at h
    left; exact h
  | cons y ys ih =>
    by_cases hy : y.1 = k
    · rw [dictSet, if_pos hy] at h
      rcases List.mem_cons.1 h with rfl | hx
      · left; rfl
      · right; exact List.mem_cons.2 (Or.inr hx)
    · rw [dictSet, if_neg hy] at h
      rcases List.mem_cons.1 h with rfl | hx
      · right; exact List.mem_cons.2 (Or.inl rfl)
      · rcases ih hx with h1 | h2
        · left; exact h1
        · right; exact List.mem_cons.2 (Or.inr h2)

theorem dictGet_dictSet_self (d : PyDict) (k v : String) :
    dictGet (dictSet d k v) k = some v := by
  induction d with
  | nil => rw [dictSet, dictGet, if_pos rfl]
  | cons x xs ih =>
    by_cases hx : x.1 = k
    · rw [dictSet, if_pos hx, dictGet, if_pos rfl]
    · rw [dictSet, if_neg hx, dictGet, if_neg hx]
      exact ih

theorem dictGet_dictSet_ne (d : PyDict) {k k' : String} (v : String) (h : k' ≠ k) :
    dictGet (dictSet d k v) k' = dictGet d k' := by
  induction d with
  | nil =>
    simp only [dictSet, dictGet]
    rw [if_neg (fun hh : (k, v).1 = k' => h hh.symm)]
  | cons x xs ih =>
    by_cases hx : x.1 = k
    · rw [dictSet, if_pos hx, dictGet, if_neg (fun hh : k = k' => h hh.symm),
        dictGet, if_neg (by rw [hx]; exact fun hh : k = k' => h hh.symm)]
    · rw [dictSet, if_neg hx]
      by_cases hk' : x.1 = k'
      · rw [dictGet, if_pos hk', dictGet, if_pos hk']
      · rw [dictGet, if_neg hk', dictGet, if_neg hk']
        exact ih

theorem dictContains_dictSet_self (d : PyDict) (k v : String) :
    dictContains (dictSet d k v) k = true := by
  rw [dictContains_dictGet]
  exact ⟨v, dictGet_dictSet_self d k v⟩

theorem dictContains_dictSet_mono {d : PyDict} {k' : String} (k v : String)
    (h : dictContains d k' = true) :
    dictContains (dictSet d k v) k' = true := by
  by_cases he : k' = k
  · subst he; exact dictContains_dictSet_self d k' v
  · rw [dictContains_dictGet] at h ⊢
    rcases h with ⟨w, hw⟩
    exact ⟨w, by rw [dictGet_dictSet_ne d v he]; exact hw⟩

/-! ### Fold preservation combinators -/

theorem foldlM_except_preserve {α β : Type} (P : β → Prop)
    (step : β → α → Except PyError β)
    (hstep : ∀ b a b', P b → step b a = .ok b' → P b') :
    ∀ (l : List α) (b b' : β), P b → l.foldlM step b = .ok b' → P b' := by
  intro l
  induction l with
  | nil =>
    intro b b' hP h
    rw [List.foldlM_nil] at h
    cases h
    exact hP
  | cons x xs ih =>
    intro b b' hP h
    rw [List.foldlM_cons] at h
    cases hx : step b x with
    | error e => rw [hx] at h; cases h
    | ok b1 =>
      rw [hx] at h
      exact ih b1 b' (hstep b x b1 hP hx) h

theorem foldl_preserve {α β : Type} (P : β → Prop) (step : β → α → β)
    (hstep : ∀ b a, P b → P (step b a)) :
    ∀ (l : List α) (b : β), P b → P (l.foldl step b) := by
  intro l
  induction l with
  | nil => intro b hP; exact hP
  | cons x xs ih =>
    intro b hP
    rw [List.foldl_cons]
    exact ih (step b x) (hstep b x hP)

/-! ### The tree's keys stay pairwise distinct through the pipeline -/

theorem rootScan_nodup_keys {t t' : PyDict} {parent_ids ids : List String}
    (hP : (t.map Prod.fst).Nodup) (h : rootScan t parent_ids ids = .ok t') :
    (t'.map Prod.fst).Nodup := by
  refine foldlM_except_preserve (fun d => (d.map Prod.fst).Nodup) _ ?_ parent_ids t t' hP h
  intro b a b' hb hstep
  by_cases hmem : a ∈ ids
  · rw [if_pos hmem] at hstep
    cases hstep
    exact hb
  · rw [if_neg hmem] at hstep
    cases hget : dictGet b "/" with
    | none =>
      simp only [hget] at hstep
      exact Except.noConfusion hstep
    | some r =>
      simp only [hget] at hstep
      by_cases hlen : r.length = 0
      · rw [if_pos hlen] at hstep
        cases hstep
        exact dictSet_keys_nodup hb
      · rw [if_neg hlen] at hstep
        by_cases hne : r ≠ a
        · rw [if_pos hne] at hstep; cases hstep
        · rw [if_neg hne] at hstep
          cases hstep
          exact hb

theorem rootPass_nodup_keys {t t' : PyDict} {files rm : List DriveFile}
    (hP : (t.map Prod.fst).Nodup) (h : rootPass t files = .ok (t', rm)) :
    (t'.map Prod.fst).Nodup := by
  have := foldlM_except_preserve
    (fun acc : PyDict × List DriveFile => (acc.1.map Prod.fst).Nodup)
    _ ?_ files (t, []) (t', rm) hP h
  · exact this
  · intro b a b' hb hstep
    cases hpar : a.parents with
    | nil =>
      simp only [hpar] at hstep
      exact Except.noConfusion hstep
    | cons p rest =>
      simp only [hpar] at hstep
      cases hget : dictGet b.1 "/" with
      | none =>
        simp only [hget] at hstep
        exact Except.noConfusion hstep
      | some r =>
        simp only [hget] at hstep
        by_cases hpr : p = r
        · rw [if_pos hpr] at hstep
          cases hstep
          exact dictSet_keys_nodup hb
        · rw [if_neg hpr] at hstep
          cases hstep
          exact hb

theorem resolvePass_nodup_keys {t : PyDict} {rem : List DriveFile}
    (hP : (t.map Prod.fst).Nodup) :
    (((resolvePass t rem).1).map Prod.fst).Nodup := by
  refine foldl_preserve
    (fun acc : PyDict × List DriveFile => (acc.1.map Prod.fst).Nodup)
    _ ?_ rem (t, []) hP
  intro b a hb
  refine foldl_preserve
    (fun acc : PyDict × List DriveFile => (acc.1.map Prod.fst).Nodup)
    _ ?_ a.parents b hb
  intro b2 p hb2
  cases hget : dictGet b2.1 p with
  | none => simpa [hget] using hb2
  | some q => simpa [hget] using dictSet_keys_nodup hb2

theorem fixLoop_ok_nodup :
    ∀ (fuel : Nat) (t : PyDict) (rem : List DriveFile) (t' : PyDict),
      (t.map Prod.fst).Nodup → fixLoop fuel t rem = some (.ok t') →
      (t'.map Prod.fst).Nodup := by
  intro fuel
  induction fuel with
  | zero =>
    intro t rem t' hP h
    cases rem with
    | nil =>
      simp only [fixLoop] at h
      cases h
      exact hP
    | cons f fs =>
      simp only [fixLoop] at h
      cases h
  | succ n ih =>
    intro t rem t' hP h
    cases rem with
    | nil =>
      simp only [fixLoop] at h
      cases h
      exact hP
    | cons f fs =>
      simp only [fixLoop] at h
      cases hrm : removeAll (f :: fs) (resolvePass t (f :: fs)).2 with
      | error e => rw [hrm] at h; cases h
      | ok rem2 =>
        rw [hrm] at h
        exact ih _ rem2 t' (resolvePass_nodup_keys hP) h

theorem buildForward_nodup_keys {fuel : Nat} {files : List DriveFile} {t : PyDict}
    (h : buildForward fuel files = some (.ok t)) :
    (t.map Prod.fst).Nodup := by
  simp only [buildForward] at h
  cases hscan : rootScan [("/", "")] (collectParentIds files) (collectIds files) with
  | error e =>
    simp only [hscan] at h
    simp at h
  | ok tree =>
    simp only [hscan] at h
    have htree : (tree.map Prod.fst).Nodup :=
      rootScan_nodup_keys (by simp) hscan
    cases hget : dictGet tree "/" with
    | none =>
      simp only [hget] at h
      simp at h
    | some root =>
      simp only [hget] at h
      by_cases hmem : root ∈ collectParentIds files
      · rw [if_pos hmem] at h
        cases hpass : rootPass tree files with
        | error e =>
          simp only [hpass] at h
          simp at h
        | ok pr =>
          simp only [hpass] at h
          cases pr with
          | mk t2 rm =>
            cases hrm : removeAll files rm with
            | error e =>
              simp only [hrm] at h
              simp at h
            | ok remainder =>
              simp only [hrm] at h
              exact fixLoop_ok_nodup fuel t2 remainder t
                (rootPass_nodup_keys htree hpass) h
      · rw [if_neg hmem] at h
        cases h

/-! ### Inversion lemmas -/

theorem dictInvert_fold_mem (d : PyDict) :
    ∀ (l acc : PyDict), (∀ x ∈ l, x ∈ d) → (∀ x ∈ acc, ((x.2, x.1) : String × String) ∈ d) →
      ∀ x ∈ l.foldl (fun a kv => dictSet a kv.2 kv.1) acc, ((x.2, x.1) : String × String) ∈ d := by
  intro l
  induction l with
  | nil => intro acc _ hacc x hx; exact hacc x hx
  | cons kv l ih =>
    intro acc hl hacc x hx
    rw [List.foldl_cons] at hx
    refine ih (dictSet acc kv.2 kv.1) (fun y hy => hl y (List.mem_cons.2 (Or.inr hy))) ?_ x hx
    intro y hy
    rcases mem_dictSet hy with rfl | hmem
    · simpa using hl kv (List.mem_cons.2 (Or.inl rfl))
    · exact hacc y hmem

theorem mem_dictInvert {d : PyDict} {a b : String} (h : (a, b) ∈ dictInvert d) :
    (b, a) ∈ d := by
  have := dictInvert_fold_mem d d [] (fun x hx => hx) (by intro x hx; cases hx) (a, b) h
  simpa using this

theorem invert_fold_get :
    ∀ (l acc : PyDict) (k v : String),
      (((k, v) ∈ l ∧ ∀ kv ∈ l, kv.2 = v → kv = (k, v)) ∨
        ((∀ kv ∈ l, kv.2 ≠ v) ∧ dictGet acc v = some k)) →
      dictGet (l.foldl (fun a kv => dictSet a kv.2 kv.1) acc) v = some k := by
  intro l
  induction l with
  | nil =>
    intro acc k v h
    rcases h with ⟨hmem, _⟩ | ⟨_, hget⟩
    · cases hmem
    · exact hget
  | cons kv l ih =>
    intro acc k v h
    rw [List.foldl_cons]
    rcases h with ⟨hmem, huniq⟩ | ⟨hne, hget⟩
    · by_cases hkv : kv = (k, v)
      · subst hkv
        by_cases hl : (k, v) ∈ l
        · exact ih _ k v (Or.inl ⟨hl, fun x hx hv => huniq x (List.mem_cons.2 (Or.inr hx)) hv⟩)
        · refine ih _ k v (Or.inr ⟨?_, by simpa using dictGet_dictSet_self acc v k⟩)
          intro x hx hv
          exact hl (huniq x (List.mem_cons.2 (Or.inr hx)) hv ▸ hx)
      · have hmem' : (k, v) ∈ l := by
          rcases List.mem_cons.1 hmem with he | hl
          · exact absurd he.symm hkv
          · exact hl
        exact ih _ k v (Or.inl ⟨hmem', fun x hx hv => huniq x (List.mem_cons.2 (Or.inr hx)) hv⟩)
    · have hkv2 : kv.2 ≠ v := hne kv (List.mem_cons.2 (Or.inl rfl))
      refine ih _ k v (Or.inr ⟨fun x hx => hne x (List.mem_cons.2 (Or.inr hx)), ?_⟩)
      rw [dictGet_dictSet_ne acc kv.1 (fun hh => hkv2 hh.symm)]
      exact hget

theorem dictInvert_get_of_unique {d : PyDict} {k v : String}
    (hmem : (k, v) ∈ d) (huniq : ∀ kv ∈ d, kv.2 = v → kv = (k, v)) :
    dictGet (dictInvert d) v = some k :=
  invert_fold_get d [] k v (Or.inl ⟨hmem, huniq⟩)

/-- C6, amended. For every successful resolution in which the forward
tree's values (the root id and the paths) are pairwise distinct — in
particular whenever no two records collide on a path — the forward id→path
tree and the returned path→id mapping are exact inverses of each other. -/
theorem c6_amended_inverse_pair {fuel : Nat} {files : List DriveFile} {t : PyDict}
    (h : buildForward fuel files = some (.ok t))
    (hvals : (t.map Prod.snd).Nodup) :
    build_directory_tree fuel files = some (.ok (dictInvert t)) ∧
    ∀ p i, dictGet (dictInvert t) p = some i ↔ dictGet t i = some p := by
  have hkeys : (t.map Prod.fst).Nodup := buildForward_nodup_keys h
  constructor
  · rw [build_directory_tree, h]; rfl
  · intro p i
    constructor
    · intro hp
      exact dictGet_of_mem hkeys (mem_dictInvert (dictGet_mem hp))
    · intro hi
      refine dictInvert_get_of_unique (dictGet_mem hi) ?_
      intro kv hkv hv
      have := List.inj_on_of_nodup_map hvals hkv (dictGet_mem hi) (by simpa using hv)
      rw [this]

/-- Witness for C6 (amended): the two-record scenario instantiates the
round-trip at the pair `("/Docs", "1")`. -/
theorem c6_amended_inverse_pair_witness :
    dictGet (dictInvert [("/", "root"), ("1", "/Docs"), ("2", "/Docs/Templates")]) "/Docs" =
        some "1" ↔
      dictGet [("/", "root"), ("1", "/Docs"), ("2", "/Docs/Templates")] "1" = some "/Docs" :=
  (@c6_amended_inverse_pair 2 exTwo [("/", "root"), ("1", "/Docs"), ("2", "/Docs/Templates")]
    rfl (by decide)).2 "/Docs" "1"

/-- C3, amended. When two distinct ids resolve to the same path the code
does *not* fail: it still returns the inverted mapping, and at most one of
the two ids survives the inversion — the other entry is silently lost. -/
theorem c3_amended_collision_drops_entry {fuel : Nat} {files : List DriveFile}
    {t : PyDict} {i j p : String}
    (h : buildForward fuel files = some (.ok t))
    (hi : dictGet t i = some p) (hj : dictGet t j = some p) (hij : i ≠ j) :
    build_directory_tree fuel files = some (.ok (dictInvert t)) ∧
    ¬ ((∃ q, dictGet (dictInvert t) q = some i) ∧
       (∃ q, dictGet (dictInvert t) q = some j)) := by
  have hkeys : (t.map Prod.fst).Nodup := buildForward_nodup_keys h
  constructor
  · rw [build_directory_tree, h]; rfl
  · rintro ⟨⟨q1, h1⟩, ⟨q2, h2⟩⟩
    have hq1 : dictGet t i = some q1 := dictGet_of_mem hkeys (mem_dictInvert (dictGet_mem h1))
    have hq2 : dictGet t j = some q2 := dictGet_of_mem hkeys (mem_dictInvert (dictGet_mem h2))
    rw [hi] at hq1
    rw [hj] at hq2
    cases hq1
    cases hq2
    exact hij (Option.some.inj (h1.symm.trans h2))

/-- Witness for C3 (amended): the duplicate-sibling input, ids `1` and `2`
both at path `/n`; at most one of them appears in the output. -/
theorem c3_amended_collision_drops_entry_witness :
    ¬ ((∃ q, dictGet (dictInvert [("/", "R"), ("1", "/n"), ("2", "/n")]) q = some "1") ∧
       (∃ q, dictGet (dictInvert [("/", "R"), ("1", "/n"), ("2", "/n")]) q = some "2")) :=
  (@c3_amended_collision_drops_entry 2 exDupSibling [("/", "R"), ("1", "/n"), ("2", "/n")]
    "1" "2" "/n" rfl rfl rfl (by decide)).2

/-- C10. If `parent_folder` is not a key of the mapping returned by
`get_folders`, `create_folder` raises `ValueError` (which the surrounding
handler, catching only `HttpError`, does not intercept, so `None` is not
returned) and issues no creation request — for any behaviour of the remote
creation call. -/
theorem c10_create_folder_missing_parent (folders : PyDict)
    (folder parent_folder : String)
    (h : dictGet folders parent_folder = none) :
    ∀ exec, create_folder folders folder parent_folder exec =
      (.error (.valueError "The parent folder does not exist in the available folders"),
       []) := by
  intro exec
  simp only [create_folder, h]

/-- Witness for C10: a one-folder mapping and a missing parent path. -/
theorem c10_create_folder_missing_parent_witness :
    create_folder [("R", "/"), ("/A", "1")] "New" "/missing" (fun _ => .ok "newid") =
      (.error (.valueError "The parent folder does not exist in the available folders"),
       []) :=
  c10_create_folder_missing_parent [("R", "/"), ("/A", "1")] "New" "/missing" rfl
    (fun _ => .ok "newid")

/-! ### Root-detection analysis -/

theorem rootScan_nil (t : PyDict) (ids : List String) : rootScan t [] ids = .ok t := rfl

theorem rootScan_cons_mem {p : String} {ids : List String} (t : PyDict) (l : List String)
    (h : p ∈ ids) : rootScan t (p :: l) ids = rootScan t l ids := by
  simp [rootScan, List.foldlM_cons, h]

theorem rootScan_cons_set {p : String} {ids : List String} {t : PyDict} {r : String}
    (l : List String) (h : p ∉ ids) (hget : dictGet t "/" = some r)
    (hlen : r.length = 0) :
    rootScan t (p :: l) ids = rootScan (dictSet t "/" p) l ids := by
  simp [rootScan, List.foldlM_cons, h, hget, hlen]

theorem rootScan_cons_raise {p : String} {ids : List String} {t : PyDict} {r : String}
    (l : List String) (h : p ∉ ids) (hget : dictGet t "/" = some r)
    (hlen : ¬ r.length = 0) (hne : r ≠ p) :
    rootScan t (p :: l) ids =
      .error (.valueError
        ("Current Root ID is " ++ r ++ ". Another root, " ++ p ++ ", is present.")) := by
  simp only [rootScan, List.foldlM_cons, h, hget, hlen, hne, if_neg, if_false,
    ite_false, ite_true]
  simp [h, hget, hlen, hne]
  rfl

theorem rootScan_cons_same {p : String} {ids : List String} {t : PyDict} {r : String}
    (l : List String) (h : p ∉ ids) (hget : dictGet t "/" = some r)
    (hlen : ¬ r.length = 0) (hne : r = p) :
    rootScan t (p :: l) ids = rootScan t l ids := by
  subst hne
  simp [rootScan, List.foldlM_cons, h, hget, hlen]

theorem rootScan_conflict {ids : List String} :
    ∀ (l : List String) (r : String), r ≠ "" →
      (∃ c ∈ l, c ∉ ids ∧ c ≠ r) →
      ∃ e, rootScan [("/", r)] l ids = .error e := by
  intro l
  induction l with
  | nil => rintro r _ ⟨c, hc, _⟩; cases hc
  | cons x l ih =>
    rintro r hr ⟨c, hcmem, hcids, hcr⟩
    have hget : dictGet [("/", r)] "/" = some r := by simp [dictGet]
    have hlen : ¬ r.length = 0 := fun h0 => hr (by
      cases r with
      | mk data => cases data with
        | nil => rfl
        | cons a as => simp [String.length] at h0)
    by_cases hx : x ∈ ids
    · rw [rootScan_cons_mem _ l hx]
      rcases List.mem_cons.1 hcmem with rfl | hcl
      · exact absurd hx hcids
      · exact ih r hr ⟨c, hcl, hcids, hcr⟩
    · by_cases hrx : r = x
      · rw [rootScan_cons_same l hx hget hlen hrx]
        rcases List.mem_cons.1 hcmem with rfl | hcl
        · exact absurd hrx.symm hcr
        · exact ih r hr ⟨c, hcl, hcids, hcr⟩
      · exact ⟨_, rootScan_cons_raise l hx hget hlen hrx⟩

theorem rootScan_all_known {ids : List String} :
    ∀ (l : List String) (r : String), (∀ p ∈ l, p ∈ ids ∨ p = r) →
      rootScan [("/", r)] l ids = .ok [("/", r)] := by
  intro l
  induction l with
  | nil => intro r _; rfl
  | cons x l ih =>
    intro r hl
    have hget : dictGet [("/", r)] "/" = some r := by simp [dictGet]
    by_cases hx : x ∈ ids
    · rw [rootScan_cons_mem _ l hx]
      exact ih r (fun p hp => hl p (List.mem_cons.2 (Or.inr hp)))
    · have hxr : x = r := by
        rcases hl x (List.mem_cons.2 (Or.inl rfl)) with h | h
        · exact absurd h hx
        · exact h
      subst hxr
      by_cases hlen : x.length = 0
      · rw [rootScan_cons_set l hx hget hlen]
        have : dictSet [("/", x)] "/" x = [("/", x)] := by simp [dictSet]
        rw [this]
        exact ih x (fun p hp => hl p (List.mem_cons.2 (Or.inr hp)))
      · rw [rootScan_cons_same l hx hget hlen rfl]
        exact ih x (fun p hp => hl p (List.mem_cons.2 (Or.inr hp)))

theorem rootScan_unique_candidate {ids : List String} :
    ∀ (l : List String) (c : String), c ∉ ids → c ∈ l →
      (∀ p ∈ l, p ∈ ids ∨ p = c) →
      rootScan [("/", "")] l ids = .ok [("/", c)] := by
  intro l
  induction l with
  | nil => intro c _ hc _; cases hc
  | cons x l ih =>
    intro c hcids hcmem hl
    have hget : dictGet [("/", "")] "/" = some "" := by simp [dictGet]
    by_cases hx : x ∈ ids
    · rw [rootScan_cons_mem _ l hx]
      rcases List.mem_cons.1 hcmem with rfl | hcl
      · exact absurd hx hcids
      · exact ih c hcids hcl (fun p hp => hl p (List.mem_cons.2 (Or.inr hp)))
    · have hxc : x = c := by
        rcases hl x (List.mem_cons.2 (Or.inl rfl)) with h | h
        · exact absurd h hx
        · exact h
      subst hxc
      rw [rootScan_cons_set l hx hget rfl]
      have : dictSet [("/", "")] "/" x = [("/", x)] := by simp [dictSet]
      rw [this]
      exact rootScan_all_known l x (fun p hp => hl p (List.mem_cons.2 (Or.inr hp)))

theorem rootScan_conflict_from_empty {ids : List String} :
    ∀ (l : List String), "" ∉ l →
      (∃ c1 ∈ l, ∃ c2 ∈ l, c1 ∉ ids ∧ c2 ∉ ids ∧ c1 ≠ c2) →
      ∃ e, rootScan [("/", "")] l ids = .error e := by
  intro l
  induction l with
  | nil => rintro _ ⟨c1, hc1, _⟩; cases hc1
  | cons x l ih =>
    rintro hns ⟨c1, hc1, c2, hc2, hc1i, hc2i, hcc⟩
    have hget : dictGet [("/", "")] "/" = some "" := by simp [dictGet]
    by_cases hx : x ∈ ids
    · rw [rootScan_cons_mem _ l hx]
      have h1 : c1 ∈ l := by
        rcases List.mem_cons.1 hc1 with rfl | h
        · exact absurd hx hc1i
        · exact h
      have h2 : c2 ∈ l := by
        rcases List.mem_cons.1 hc2 with rfl | h
        · exact absurd hx hc2i
        · exact h
      exact ih (fun h => hns (List.mem_cons.2 (Or.inr h)))
        ⟨c1, h1, c2, h2, hc1i, hc2i, hcc⟩
    · rw [rootScan_cons_set l hx hget rfl]
      have : dictSet [("/", "")] "/" x = [("/", x)] := by simp [dictSet]
      rw [this]
      have hxne : x ≠ "" := fun he => hns (List.mem_cons.2 (Or.inl he.symm))
      rcases (show ∃ c ∈ l, c ∉ ids ∧ c ≠ x by
        by_cases h1x : c1 = x
        · subst h1x
          have : c2 ∈ l := by
            rcases List.mem_cons.1 hc2 with rfl | h
            · exact absurd rfl hcc
            · exact h
          exact ⟨c2, this, hc2i, fun he => hcc he.symm⟩
        · have : c1 ∈ l := by
            rcases List.mem_cons.1 hc1 with rfl | h
            · exact absurd rfl h1x
            · exact h
          exact ⟨c1, this, hc1i, h1x⟩) with ⟨c, hcl, hci, hcx⟩
      exact rootScan_conflict l x hxne ⟨c, hcl, hci, hcx⟩

theorem collectParentIds_nodup (files : List DriveFile) :
    (collectParentIds files).Nodup := by
  refine foldl_preserve (fun a : List String => a.Nodup) _ ?_ files [] List.nodup_nil
  intro a f ha
  refine foldl_preserve (fun a : List String => a.Nodup) _ ?_ f.parents a ha
  intro b p hb
  by_cases hp : p ∈ b
  · rw [if_pos hp]; exact hb
  · rw [if_neg hp]
    rw [List.nodup_append]
    exact ⟨hb, List.nodup_singleton p, fun x hx hy => hp ((List.mem_singleton.1 hy) ▸ hx)⟩

/-- C5, amended. Provided the empty string — the code's uninitialized
root sentinel — is not among the referenced parent ids: with zero root
candidates resolution fails (the `parent_ids.remove(tree['/'])` call raises
`ValueError`), with two or more candidates it fails (the detection loop
raises `ValueError`), and with exactly one candidate the detected root is
that candidate.  Without the proviso the sentinel can collide with a genuine
empty-string id and a zero-candidate input resolves successfully
(`c5_zero_candidates_no_error`). -/
theorem c5_amended_root_detection (files : List DriveFile) (fuel : Nat)
    (hns : "" ∉ collectParentIds files) :
    (rootCandidates files = [] →
      ∃ e, build_directory_tree fuel files = some (.error e)) ∧
    (2 ≤ (rootCandidates files).length →
      ∃ e, build_directory_tree fuel files = some (.error e)) ∧
    (∀ c, rootCandidates files = [c] → detectRoot files = .ok c) := by
  refine ⟨?_, ?_, ?_⟩
  · intro h0
    have hall : ∀ p ∈ collectParentIds files, p ∈ collectIds files := by
      intro p hp
      by_contra hnot
      have : p ∈ rootCandidates files := List.mem_filter.2 ⟨hp, by simpa using hnot⟩
      rw [h0] at this
      cases this
    have hscan := @rootScan_all_known (collectIds files) (collectParentIds files) ""
      (fun p hp => Or.inl (hall p hp))
    refine ⟨.valueError "list.remove(x): x not in list", ?_⟩
    simp only [build_directory_tree, buildForward, hscan]
    simp [dictGet, hns]
    rfl
  · intro h2
    rcases hcand : rootCandidates files with _ | ⟨c1, _ | ⟨c2, rest⟩⟩
    · rw [hcand] at h2; cases h2
    · rw [hcand] at h2; simp at h2
    · have hnd : (rootCandidates files).Nodup :=
        (collectParentIds_nodup files).filter _
      rw [hcand] at hnd
      have hcc : c1 ≠ c2 :=
        fun he => (List.nodup_cons.1 hnd).1 (he ▸ List.mem_cons.2 (Or.inl rfl))
      have h1 : c1 ∈ rootCandidates files := by rw [hcand]; simp
      have h2m : c2 ∈ rootCandidates files := by rw [hcand]; simp
      have h1' := List.mem_filter.1 h1
      have h2' := List.mem_filter.1 h2m
      rcases @rootScan_conflict_from_empty (collectIds files) (collectParentIds files)
          hns ⟨c1, h1'.1, c2, h2'.1, by simpa using h1'.2, by simpa using h2'.2, hcc⟩
        with ⟨e, herr⟩
      refine ⟨e, ?_⟩
      simp only [build_directory_tree, buildForward, herr]
      rfl
  · intro c hc
    have hcmem : c ∈ rootCandidates files := by rw [hc]; simp
    have hc' := List.mem_filter.1 hcmem
    have hcids : c ∉ collectIds files := by simpa using hc'.2
    have hall : ∀ p ∈ collectParentIds files, p ∈ collectIds files ∨ p = c := by
      intro p hp
      by_cases hpi : p ∈ collectIds files
      · exact Or.inl hpi
      · right
        have : p ∈ rootCandidates files := List.mem_filter.2 ⟨hp, by simpa using hpi⟩
        rw [hc] at this
        simpa using this
    have hscan := @rootScan_unique_candidate (collectIds files) (collectParentIds files)
      c hcids hc'.1 hall
    simp only [detectRoot, hscan]
    simp [dictGet]

/-- Witness for C5 (amended): two distinct unknown parents `R`, `S` give two
root candidates and resolution fails. -/
theorem c5_amended_root_detection_witness :
    ∃ e, build_directory_tree 2 [⟨"1", "A", ["R"]⟩, ⟨"2", "B", ["S"]⟩] =
      some (.error e) :=
  (c5_amended_root_detection [⟨"1", "A", ["R"]⟩, ⟨"2", "B", ["S"]⟩] 2
    (by decide)).2.1 (by decide)

/-! ### The first pass depends only on first parents -/

theorem rootPass_fold_view :
    ∀ (l1 l2 : List DriveFile), l1.map firstParentView = l2.map firstParentView →
      ∀ (t : PyDict) (r1 r2 : List DriveFile),
        r1.map firstParentView = r2.map firstParentView →
        Except.map (fun tr : PyDict × List DriveFile => (tr.1, tr.2.map firstParentView))
          (List.foldlM (fun (acc : PyDict × List DriveFile) (f : DriveFile) =>
            match f.parents with
            | [] => throw PyError.indexError
            | p :: _ =>
              match dictGet acc.1 "/" with
              | none => throw PyError.keyError
              | some r =>
                if p = r then
                  pure (dictSet acc.1 f.id ("/" ++ f.name), acc.2 ++ [f])
                else
                  pure acc) ((t, r1) : PyDict × List DriveFile) l1 :
            Except PyError (PyDict × List DriveFile)) =
        Except.map (fun tr : PyDict × List DriveFile => (tr.1, tr.2.map firstParentView))
          (List.foldlM (fun (acc : PyDict × List DriveFile) (f : DriveFile) =>
            match f.parents with
            | [] => throw PyError.indexError
            | p :: _ =>
              match dictGet acc.1 "/" with
              | none => throw PyError.keyError
              | some r =>
                if p = r then
                  pure (dictSet acc.1 f.id ("/" ++ f.name), acc.2 ++ [f])
                else
                  pure acc) ((t, r2) : PyDict × List DriveFile) l2 :
            Except PyError (PyDict × List DriveFile)) := by
  intro l1
  induction l1 with
  | nil =>
    intro l2 hl t r1 r2 hr
    cases l2 with
    | nil =>
      rw [List.foldlM_nil, List.foldlM_nil]
      simp only [pure, Except.pure, Except.map]
      rw [hr]
    | cons g l2 => cases hl
  | cons f l1 ih =>
    intro l2 hl t r1 r2 hr
    cases l2 with
    | nil => cases hl
    | cons g l2 =>
      simp only [List.map_cons, List.cons.injEq] at hl
      have hid : f.id = g.id := congrArg (fun x => x.1) hl.1
      have hname : f.name = g.name := congrArg (fun x => x.2.1) hl.1
      have hhead : f.parents.head? = g.parents.head? := congrArg (fun x => x.2.2) hl.1
      rw [List.foldlM_cons, List.foldlM_cons]
      cases hp1 : f.parents with
      | nil =>
        have hp2 : g.parents = [] := by
          rw [hp1] at hhead
          exact List.head?_eq_none_iff.1 hhead.symm
        rw [hp2]
        rfl
      | cons p1 rest1 =>
        cases hp2 : g.parents with
        | nil =>
          rw [hp1, hp2] at hhead
          cases hhead
        | cons p2 rest2 =>
          have hp : p1 = p2 := by
            rw [hp1, hp2] at hhead
            simpa using hhead
          subst hp
          cases hget : dictGet t "/" with
          | none => rfl
          | some r =>
            by_cases hpr : p1 = r
            · simp only [if_pos hpr, pure, Except.pure, bind, Except.bind]
              rw [hid, hname]
              refine ih l2 hl.2 _ (r1 ++ [f]) (r2 ++ [g]) ?_
              simp only [List.map_append, List.map_cons, List.map_nil, hr, hl.1]
            · simp only [if_neg hpr, pure, Except.pure, bind, Except.bind]
              exact ih l2 hl.2 t r1 r2 hr

/-- C8, amended. It is only the *initial root-children pass* of
resolution that depends solely on each record's first-listed parent id: two
file lists agreeing on every record's id, name and first parent produce the
same tree and view-identical removal lists in `rootPass`.  Root detection
and the fixpoint loop, by contrast, consult *every* listed parent id, so a
later parent can change the overall result
(`c8_second_parent_changes_result`). -/
theorem c8_amended_rootPass_first_parent (tree : PyDict)
    (files1 files2 : List DriveFile)
    (h : files1.map firstParentView = files2.map firstParentView) :
    Except.map (fun tr : PyDict × List DriveFile => (tr.1, tr.2.map firstParentView))
        (rootPass tree files1) =
      Except.map (fun tr : PyDict × List DriveFile => (tr.1, tr.2.map firstParentView))
        (rootPass tree files2) := by
  rw [rootPass, rootPass]
  exact rootPass_fold_view files1 files2 h tree [] [] rfl

/-- Witness for C8 (amended): the one-record pair differing only in a second
parent id gives identical first passes. -/
theorem c8_amended_rootPass_first_parent_witness :
    Except.map (fun tr : PyDict × List DriveFile => (tr.1, tr.2.map firstParentView))
        (rootPass [("/", "R")] exOneParent) =
      Except.map (fun tr : PyDict × List DriveFile => (tr.1, tr.2.map firstParentView))
        (rootPass [("/", "R")] exTwoParents) :=
  c8_amended_rootPass_first_parent [("/", "R")] exOneParent exTwoParents (by decide)

/-! ### Basic facts about `PathAt` and valid forests -/

theorem pathAt_mem_ids {files : List DriveFile} {root i q : String} {n : Nat}
    (h : PathAt files root i q n) : i ∈ collectIds files := by
  cases h with
  | base f hf _ => exact List.mem_map.2 ⟨f, hf, rfl⟩
  | step f pid q n hf _ _ => exact List.mem_map.2 ⟨f, hf, rfl⟩

theorem pathAt_exists_root_child {files : List DriveFile} {root i q : String} {n : Nat}
    (h : PathAt files root i q n) : ∃ g ∈ files, g.parents = [root] := by
  induction h with
  | base f hf hp => exact ⟨f, hf, hp⟩
  | step f pid q n hf hp hq ih => exact ih

theorem ids_inj {files : List DriveFile} (hnd : (collectIds files).Nodup)
    {f g : DriveFile} (hf : f ∈ files) (hg : g ∈ files) (h : f.id = g.id) :
    f = g :=
  List.inj_on_of_nodup_map hnd hf hg h

theorem pathAt_unique_aux {files : List DriveFile} {root : String}
    (hnd : (collectIds files).Nodup) (hroot : root ∉ collectIds files) :
    ∀ {i q n}, PathAt files root i q n →
      ∀ {j q' n'}, PathAt files root j q' n' → i = j → q = q' ∧ n = n' := by
  intro i q n h
  induction h with
  | base f hf hp =>
    intro j q' n' h' hij
    cases h' with
    | base g hg hpg =>
      have hfg : f = g := ids_inj hnd hf hg hij
      subst hfg
      exact ⟨rfl, rfl⟩
    | step g pid q2 m hg hpg hq2 =>
      have hfg : f = g := ids_inj hnd hf hg hij
      subst hfg
      rw [hp] at hpg
      cases hpg
      exact absurd (pathAt_mem_ids hq2) hroot
  | step f pid q2 m hf hp hq ih =>
    intro j q' n' h' hij
    cases h' with
    | base g hg hpg =>
      have hfg : f = g := ids_inj hnd hf hg hij
      subst hfg
      rw [hp] at hpg
      cases hpg
      exact absurd (pathAt_mem_ids hq) hroot
    | step g pid2 q3 m2 hg hpg hq3 =>
      have hfg : f = g := ids_inj hnd hf hg hij
      subst hfg
      rw [hp] at hpg
      cases hpg
      rcases ih hq3 rfl with ⟨hq, hn⟩
      subst hq
      subst hn
      exact ⟨rfl, rfl⟩

theorem pathAt_unique {files : List DriveFile} {root : String}
    (hnd : (collectIds files).Nodup) (hroot : root ∉ collectIds files)
    {i q n q' n'} (h : PathAt files root i q n) (h' : PathAt files root i q' n') :
    q = q' ∧ n = n' :=
  pathAt_unique_aux hnd hroot h h' rfl

theorem pathAt_inv {files : List DriveFile} {root i q : String} {n : Nat}
    (h : PathAt files root i q n) :
    ∃ g, g ∈ files ∧ g.id = i ∧
      ((g.parents = [root] ∧ q = "/" ++ g.name ∧ n = 1) ∨
        (∃ pid q2 m, g.parents = [pid] ∧ PathAt files root pid q2 m ∧
          q = q2 ++ "/" ++ g.name ∧ n = m + 1)) := by
  cases h with
  | base f hf hp => exact ⟨f, hf, rfl, Or.inl ⟨hp, rfl, rfl⟩⟩
  | step f pid q2 m hf hp hq =>
    exact ⟨f, hf, rfl, Or.inr ⟨pid, q2, m, hp, hq, rfl, rfl⟩⟩

theorem valid_one_parent {files : List DriveFile} {root : String}
    (V : ValidForest files root) {f : DriveFile} (hf : f ∈ files) :
    ∃ p, f.parents = [p] ∧ (p = root ∨ p ∈ collectIds files) := by
  rcases V.reachable f hf with ⟨q, n, h⟩
  rcases pathAt_inv h with ⟨g, hg, hid, hcase⟩
  have hgf : g = f := ids_inj V.nodup_ids hg hf hid
  subst hgf
  rcases hcase with ⟨hp, _, _⟩ | ⟨pid, q2, m, hp, hq, _, _⟩
  · exact ⟨root, hp, Or.inl rfl⟩
  · exact ⟨pid, hp, Or.inr (pathAt_mem_ids hq)⟩

theorem mem_parents_foldl (ps : List String) :
    ∀ (a : List String) (x : String),
      x ∈ ps.foldl (fun a p => if p ∈ a then a else a ++ [p]) a ↔ x ∈ a ∨ x ∈ ps := by
  induction ps with
  | nil => intro a x; simp
  | cons p ps ih =>
    intro a x
    rw [List.foldl_cons]
    by_cases hp : p ∈ a
    · rw [if_pos hp, ih]
      constructor
      · rintro (h | h)
        · exact Or.inl h
        · exact Or.inr (List.mem_cons.2 (Or.inr h))
      · rintro (h | h)
        · exact Or.inl h
        · rcases List.mem_cons.1 h with rfl | h
          · exact Or.inl hp
          · exact Or.inr h
    · rw [if_neg hp, ih]
      constructor
      · rintro (h | h)
        · rcases List.mem_append.1 h with h | h
          · exact Or.inl h
          · exact Or.inr (List.mem_cons.2 (Or.inl (List.mem_singleton.1 h)))
        · exact Or.inr (List.mem_cons.2 (Or.inr h))
      · rintro (h | h)
        · exact Or.inl (List.mem_append.2 (Or.inl h))
        · rcases List.mem_cons.1 h with rfl | h
          · exact Or.inl (List.mem_append.2 (Or.inr (List.mem_singleton.2 rfl)))
          · exact Or.inr h

theorem mem_collectParentIds {files : List DriveFile} {x : String} :
    x ∈ collectParentIds files ↔ ∃ f ∈ files, x ∈ f.parents := by
  suffices h : ∀ (l : List DriveFile) (a : List String),
      x ∈ l.foldl (fun acc f =>
        f.parents.foldl (fun a p => if p ∈ a then a else a ++ [p]) acc) a ↔
      x ∈ a ∨ ∃ f ∈ l, x ∈ f.parents by
    rw [collectParentIds, h]
    simp
  intro l
  induction l with
  | nil => intro a; simp
  | cons f l ih =>
    intro a
    rw [List.foldl_cons, ih, mem_parents_foldl]
    constructor
    · rintro ((h | h) | h)
      · exact Or.inl h
      · exact Or.inr ⟨f, List.mem_cons.2 (Or.inl rfl), h⟩
      · rcases h with ⟨g, hg, hx⟩
        exact Or.inr ⟨g, List.mem_cons.2 (Or.inr hg), hx⟩
    · rintro (h | ⟨g, hg, hx⟩)
      · exact Or.inl (Or.inl h)
      · rcases List.mem_cons.1 hg with rfl | hg
        · exact Or.inl (Or.inr hx)
        · exact Or.inr ⟨g, hg, hx⟩

theorem valid_root_referenced {files : List DriveFile} {root : String}
    (V : ValidForest files root) : root ∈ collectParentIds files := by
  rcases List.exists_mem_of_ne_nil files V.ne with ⟨f, hf⟩
  rcases V.reachable f hf with ⟨q, n, h⟩
  rcases pathAt_exists_root_child h with ⟨g, hg, hpg⟩
  exact mem_collectParentIds.2 ⟨g, hg, by rw [hpg]; exact List.mem_singleton.2 rfl⟩

theorem valid_rootScan {files : List DriveFile} {root : String}
    (V : ValidForest files root) :
    rootScan [("/", "")] (collectParentIds files) (collectIds files) =
      .ok [("/", root)] := by
  refine @rootScan_unique_candidate (collectIds files) (collectParentIds files) root
    V.root_not_id (valid_root_referenced V) ?_
  intro p hp
  rcases mem_collectParentIds.1 hp with ⟨f, hf, hpf⟩
  rcases valid_one_parent V hf with ⟨pf, hpar, hcase⟩
  rw [hpar] at hpf
  rcases List.mem_singleton.1 hpf with rfl
  rcases hcase with rfl | h
  · exact Or.inr rfl
  · exact Or.inl h

theorem head_dictGet (r : String) (es : PyDict) :
    dictGet (("/", r) :: es) "/" = some r := by
  simp [dictGet]

theorem dictSet_cons_ne (r v : String) (es : PyDict) {k : String} (h : ¬ k = "/") :
    dictSet (("/", r) :: es) k v = ("/", r) :: dictSet es k v := by
  rw [dictSet]
  rw [if_neg (fun he : ("/", r).1 = k => h he.symm)]

/-! ### The first pass under a valid forest -/

theorem rootPass_fold_okspec {files : List DriveFile} {root : String}
    (V : ValidForest files root) :
    ∀ (l : List DriveFile), (∀ f ∈ l, f ∈ files) →
      ∀ (es : PyDict) (rmv : List DriveFile),
        (∀ kv ∈ es, ∃ n, PathAt files root kv.1 kv.2 n) →
        ((("/", root) :: es).map Prod.fst).Nodup →
        ∃ es2 rmv2,
          (List.foldlM (fun (acc : PyDict × List DriveFile) (f : DriveFile) =>
            match f.parents with
            | [] => throw PyError.indexError
            | p :: _ =>
              match dictGet acc.1 "/" with
              | none => throw PyError.keyError
              | some r =>
                if p = r then
                  pure (dictSet acc.1 f.id ("/" ++ f.name), acc.2 ++ [f])
                else
                  pure acc) ((("/", root) :: es, rmv) : PyDict × List DriveFile) l :
              Except PyError (PyDict × List DriveFile))
            = .ok (("/", root) :: es2, rmv ++ rmv2) ∧
          (∀ kv ∈ es2, ∃ n, PathAt files root kv.1 kv.2 n) ∧
          ((("/", root) :: es2).map Prod.fst).Nodup ∧
          (∀ k, dictContains (("/", root) :: es) k = true →
            dictContains (("/", root) :: es2) k = true) ∧
          rmv2.Sublist l ∧
          (∀ f ∈ rmv2, dictContains (("/", root) :: es2) f.id = true) ∧
          (∀ f ∈ l, f.parents = [root] → f ∈ rmv2) := by
  intro l
  induction l with
  | nil =>
    intro hl es rmv hsound hkeys
    refine ⟨es, [], ?_, hsound, hkeys, fun k hk => hk, List.nil_sublist [], ?_⟩
    · rw [List.foldlM_nil, List.append_nil]
      rfl
    · exact ⟨fun f hf => absurd hf (List.not_mem_nil f),
        fun f hf => absurd hf (List.not_mem_nil f)⟩
  | cons f l ih =>
    intro hl es rmv hsound hkeys
    have hf : f ∈ files := hl f (List.mem_cons.2 (Or.inl rfl))
    rcases valid_one_parent V hf with ⟨pf, hpar, hpcase⟩
    have hfid : f.id ∈ collectIds files := List.mem_map.2 ⟨f, hf, rfl⟩
    have hfid_ne : ¬ f.id = "/" := fun he => V.slash_not_id (he ▸ hfid)
    simp only [List.foldlM_cons, hpar, head_dictGet]
    by_cases hpf : pf = root
    · simp only [if_pos hpf, pure_bind]
      rw [dictSet_cons_ne root ("/" ++ f.name) es hfid_ne]
      have hsound2 : ∀ kv ∈ dictSet es f.id ("/" ++ f.name),
          ∃ n, PathAt files root kv.1 kv.2 n := by
        intro kv hkv
        rcases mem_dictSet hkv with rfl | hmem
        · exact ⟨1, PathAt.base f hf (by rw [hpar, hpf])⟩
        · exact hsound kv hmem
      have hkeys2 : ((("/", root) :: dictSet es f.id ("/" ++ f.name)).map Prod.fst).Nodup := by
        rw [← dictSet_cons_ne root ("/" ++ f.name) es hfid_ne]
        exact dictSet_keys_nodup hkeys
      rcases ih (fun g hg => hl g (List.mem_cons.2 (Or.inr hg)))
          (dictSet es f.id ("/" ++ f.name)) (rmv ++ [f]) hsound2 hkeys2 with
        ⟨es2, rmv2, heq, hs2, hk2, hmono, hsub, hrc, hroot⟩
      refine ⟨es2, f :: rmv2, ?_, hs2, hk2, ?_, hsub.cons₂ f, ?_, ?_⟩
      · rw [heq]
        simp
      · intro k hk
        refine hmono k ?_
        rw [← dictSet_cons_ne root ("/" ++ f.name) es hfid_ne]
        exact dictContains_dictSet_mono f.id ("/" ++ f.name) hk
      · intro g hg
        rcases List.mem_cons.1 hg with rfl | hg
        · refine hmono g.id ?_
          rw [← dictSet_cons_ne root ("/" ++ g.name) es hfid_ne]
          exact dictContains_dictSet_self _ g.id ("/" ++ g.name)
        · exact hrc g hg
      · intro g hg hgroot
        rcases List.mem_cons.1 hg with rfl | hg
        · exact List.mem_cons.2 (Or.inl rfl)
        · exact List.mem_cons.2 (Or.inr (hroot g hg hgroot))
    · simp only [if_neg hpf, pure_bind]
      rcases ih (fun g hg => hl g (List.mem_cons.2 (Or.inr hg))) es rmv hsound hkeys with
        ⟨es2, rmv2, heq, hs2, hk2, hmono, hsub, hrc, hroot⟩
      refine ⟨es2, rmv2, heq, hs2, hk2, hmono, hsub.cons f, hrc, ?_⟩
      intro g hg hgroot
      rcases List.mem_cons.1 hg with rfl | hg
      · rw [hpar] at hgroot
        cases hgroot
        exact absurd rfl hpf
      · exact hroot g hg hgroot

theorem dictGet_cons_ne {x : String × String} {es : PyDict} {k : String}
    (h : ¬ x.1 = k) : dictGet (x :: es) k = dictGet es k := by
  rw [dictGet, if_neg h]

/-! ### One pass of the while loop under a valid forest -/

theorem resolvePass_fold_spec {files : List DriveFile} {root : String}
    (V : ValidForest files root) :
    ∀ (l : List DriveFile),
      (∀ f ∈ l, f ∈ files ∧ ∃ pid, f.parents = [pid] ∧ pid ∈ collectIds files) →
      ∀ (es : PyDict) (rmv : List DriveFile),
        (∀ kv ∈ es, ∃ n, PathAt files root kv.1 kv.2 n) →
        ((("/", root) :: es).map Prod.fst).Nodup →
        ∃ es2 rmv2,
          (l.foldl (fun (acc : PyDict × List DriveFile) (f : DriveFile) =>
            f.parents.foldl
              (fun acc2 p =>
                match dictGet acc2.1 p with
                | some q => (dictSet acc2.1 f.id (q ++ "/" ++ f.name), acc2.2 ++ [f])
                | none => acc2)
              acc) ((("/", root) :: es, rmv) : PyDict × List DriveFile))
            = (("/", root) :: es2, rmv ++ rmv2) ∧
          (∀ kv ∈ es2, ∃ n, PathAt files root kv.1 kv.2 n) ∧
          ((("/", root) :: es2).map Prod.fst).Nodup ∧
          (∀ k, dictContains (("/", root) :: es) k = true →
            dictContains (("/", root) :: es2) k = true) ∧
          rmv2.Sublist l ∧
          (∀ f ∈ rmv2, dictContains (("/", root) :: es2) f.id = true) ∧
          (∀ f ∈ l, ∀ pid, f.parents = [pid] →
            dictContains (("/", root) :: es) pid = true → f ∈ rmv2) := by
  intro l
  induction l with
  | nil =>
    intro hl es rmv hsound hkeys
    refine ⟨es, [], ?_, hsound, hkeys, fun k hk => hk, List.nil_sublist [], ?_⟩
    · rw [List.foldl_nil, List.append_nil]
    · exact ⟨fun f hf => absurd hf (List.not_mem_nil f),
        fun f hf _ _ _ => absurd hf (List.not_mem_nil f)⟩
  | cons f l ih =>
    intro hl es rmv hsound hkeys
    rcases hl f (List.mem_cons.2 (Or.inl rfl)) with ⟨hf, pid, hpar, hpid⟩
    have hfid : f.id ∈ collectIds files := List.mem_map.2 ⟨f, hf, rfl⟩
    have hfid_ne : ¬ f.id = "/" := fun he => V.slash_not_id (he ▸ hfid)
    have hpid_ne : ¬ ("/", root).1 = pid := by
      intro he
      have : ("/" : String) = pid := he
      exact V.slash_not_id (this ▸ hpid)
    rw [List.foldl_cons]
    simp only [hpar, List.foldl_cons, List.foldl_nil]
    cases hget : dictGet (("/", root) :: es) pid with
    | some q =>
      simp only [hget]
      have hq_es : dictGet es pid = some q := by
        rw [dictGet_cons_ne hpid_ne] at hget
        exact hget
      rcases hsound (pid, q) (dictGet_mem hq_es) with ⟨m, hm⟩
      have hsound2 : ∀ kv ∈ dictSet es f.id (q ++ "/" ++ f.name),
          ∃ n, PathAt files root kv.1 kv.2 n := by
        intro kv hkv
        rcases mem_dictSet hkv with rfl | hmem
        · exact ⟨m + 1, PathAt.step f pid q m hf hpar hm⟩
        · exact hsound kv hmem
      have hkeys2 :
          ((("/", root) :: dictSet es f.id (q ++ "/" ++ f.name)).map Prod.fst).Nodup := by
        rw [← dictSet_cons_ne root (q ++ "/" ++ f.name) es hfid_ne]
        exact dictSet_keys_nodup hkeys
      rw [dictSet_cons_ne root (q ++ "/" ++ f.name) es hfid_ne]
      rcases ih (fun g hg => hl g (List.mem_cons.2 (Or.inr hg)))
          (dictSet es f.id (q ++ "/" ++ f.name)) (rmv ++ [f]) hsound2 hkeys2 with
        ⟨es2, rmv2, heq, hs2, hk2, hmono, hsub, hrc, hres⟩
      refine ⟨es2, f :: rmv2, ?_, hs2, hk2, ?_, hsub.cons₂ f, ?_, ?_⟩
      · rw [heq]
        simp
      · intro k hk
        refine hmono k ?_
        rw [← dictSet_cons_ne root (q ++ "/" ++ f.name) es hfid_ne]
        exact dictContains_dictSet_mono f.id (q ++ "/" ++ f.name) hk
      · intro g hg
        rcases List.mem_cons.1 hg with rfl | hg
        · refine hmono g.id ?_
          rw [← dictSet_cons_ne root (q ++ "/" ++ g.name) es hfid_ne]
          exact dictContains_dictSet_self _ g.id (q ++ "/" ++ g.name)
        · exact hrc g hg
      · intro g hg pid2 hpar2 hcont
        rcases List.mem_cons.1 hg with rfl | hg
        · exact List.mem_cons.2 (Or.inl rfl)
        · refine List.mem_cons.2 (Or.inr (hres g hg pid2 hpar2 ?_))
          rw [← dictSet_cons_ne root (q ++ "/" ++ f.name) es hfid_ne]
          exact dictContains_dictSet_mono f.id (q ++ "/" ++ f.name) hcont
    | none =>
      simp only [hget]
      rcases ih (fun g hg => hl g (List.mem_cons.2 (Or.inr hg))) es rmv hsound hkeys with
        ⟨es2, rmv2, heq, hs2, hk2, hmono, hsub, hrc, hres⟩
      refine ⟨es2, rmv2, heq, hs2, hk2, hmono, hsub.cons f, hrc, ?_⟩
      intro g hg pid2 hpar2 hcont
      rcases List.mem_cons.1 hg with rfl | hg
      · rw [hpar] at hpar2
        cases hpar2
        rcases (dictContains_dictGet _ _).1 hcont with ⟨v, hv⟩
        rw [hv] at hget
        cases hget
      · exact hres g hg pid2 hpar2 hcont

/-! ### Removing the resolved records -/

theorem sublist_erase_of_cons {α : Type} [DecidableEq α] :
    ∀ {rem : List α} {x : α} {l : List α}, rem.Nodup → (x :: l).Sublist rem →
      l.Sublist (rem.erase x) := by
  intro rem
  induction rem with
  | nil => intro x l _ h; cases h
  | cons y rem ih =>
    intro x l hnd h
    cases h with
    | cons₂ a h =>
      rw [List.erase_cons_head]
      exact h
    | cons a h =>
      have hx : x ∈ rem := h.mem (List.mem_cons.2 (Or.inl rfl))
      have hyx : ¬ (y == x) = true := by
        intro hb
        have : y = x := by simpa using hb
        exact (List.nodup_cons.1 hnd).1 (this ▸ hx)
      rw [List.erase_cons_tail hyx]
      exact (ih (List.nodup_cons.1 hnd).2 h).cons y

theorem removeAll_of_sublist :
    ∀ (rmv rem : List DriveFile), rem.Nodup → rmv.Sublist rem →
      removeAll rem rmv = .ok (rem.filter (fun f => ¬ f ∈ rmv)) := by
  intro rmv
  induction rmv with
  | nil =>
    intro rem _ _
    rw [removeAll, List.foldlM_nil]
    simp only [List.not_mem_nil, not_false_iff, List.filter_true, decide_True]
    rfl
  | cons x rmv ih =>
    intro rem hnd hsub
    have hx : x ∈ rem := hsub.mem (List.mem_cons.2 (Or.inl rfl))
    rw [removeAll, List.foldlM_cons, if_pos hx]
    have hrec := ih (rem.erase x) (hnd.erase x) (sublist_erase_of_cons hnd hsub)
    rw [removeAll] at hrec
    rw [show (pure (rem.erase x) : Except PyError (List DriveFile)) >>=
        (fun r => List.foldlM (fun r f =>
          if f ∈ r then pure (r.erase f)
          else throw (.valueError "list.remove(x): x not in list")) r rmv) =
        List.foldlM (fun r f =>
          if f ∈ r then pure (r.erase f)
          else throw (.valueError "list.remove(x): x not in list")) (rem.erase x) rmv
      from rfl]
    rw [hrec]
    congr 1
    rw [hnd.erase_eq_filter x, List.filter_filter]
    apply List.filter_congr
    intro a _
    by_cases h1 : a = x
    · subst h1
      simp
    · by_cases h2 : a ∈ rmv
      · simp [h1, h2]
      · simp [h1, h2]

theorem loopInv_step {files : List DriveFile} {root : String} {t : PyDict}
    {rem : List DriveFile} {k : Nat} (V : ValidForest files root)
    (I : LoopInv files root t rem k) :
    ∃ rem2, removeAll rem (resolvePass t rem).2 = .ok rem2 ∧
      LoopInv files root (resolvePass t rem).1 rem2 (k + 1) := by
  rcases I.shape with ⟨es, rfl, hsound⟩
  have hfiles_nodup : files.Nodup := V.nodup_ids.of_map _
  have hrem_nodup : rem.Nodup := I.sub.nodup hfiles_nodup
  have hpre : ∀ f ∈ rem, f ∈ files ∧ ∃ pid, f.parents = [pid] ∧
      pid ∈ collectIds files := by
    intro f hf
    have hff : f ∈ files := I.sub.mem hf
    refine ⟨hff, ?_⟩
    rcases V.reachable f hff with ⟨q, n, h⟩
    have hn := I.deep f hf q n h
    rcases pathAt_inv h with ⟨g, hg, hgid, hcase⟩
    have hgf : g = f := ids_inj V.nodup_ids hg hff hgid
    subst hgf
    rcases hcase with ⟨hp, _, hn1⟩ | ⟨pid, q2, m, hp, hq2, _, _⟩
    · omega
    · exact ⟨pid, hp, pathAt_mem_ids hq2⟩
  rcases resolvePass_fold_spec V rem hpre es [] hsound I.nkeys with
    ⟨es2, rmv2, heq, hs2, hk2, hmono, hsub2, hrc, hres⟩
  have hres_eq : resolvePass (("/", root) :: es) rem = (("/", root) :: es2, rmv2) := by
    rw [resolvePass, heq]
    simp
  refine ⟨rem.filter (fun f => ¬ f ∈ rmv2), ?_, ?_⟩
  · rw [hres_eq]
    exact removeAll_of_sublist rmv2 rem hrem_nodup hsub2
  · rw [hres_eq]
    refine ⟨⟨es2, rfl, hs2⟩, hk2, ?_, (List.filter_sublist rem).trans I.sub, ?_⟩
    · intro f hf hnot
      by_cases hfr : f ∈ rem
      · have hmem2 : f ∈ rmv2 := by
          by_contra hno
          exact hnot (List.mem_filter.2 ⟨hfr, by simpa using hno⟩)
        exact hrc f hmem2
      · exact hmono f.id (I.resolved f hf hfr)
    · intro f hf q n h
      have hfr : f ∈ rem := (List.mem_filter.1 hf).1
      have hnot2 : ¬ f ∈ rmv2 := by simpa using (List.mem_filter.1 hf).2
      have hn := I.deep f hfr q n h
      by_contra hlt
      push_neg at hlt
      have hn2 : n = k + 2 := by omega
      rcases pathAt_inv h with ⟨g, hg, hgid, hcase⟩
      have hgf : g = f := ids_inj V.nodup_ids hg (I.sub.mem hfr) hgid
      subst hgf
      rcases hcase with ⟨hp, _, hn1⟩ | ⟨pid, q2, m, hp, hq2, _, hnm⟩
      · omega
      · rcases List.mem_map.1 (pathAt_mem_ids hq2) with ⟨g2, hg2, hg2id⟩
        have hg2nr : g2 ∉ rem := by
          intro hg2r
          have hdeep2 := I.deep g2 hg2r q2 m (by rw [hg2id]; exact hq2)
          omega
        have hcont : dictContains (("/", root) :: es) pid = true := by
          have hr := I.resolved g2 hg2 hg2nr
          rwa [hg2id] at hr
        exact hnot2 (hres _ hfr pid hp hcont)

theorem pathAt_pos {files : List DriveFile} {root i q : String} {n : Nat}
    (h : PathAt files root i q n) : 1 ≤ n := by
  cases h with
  | base f hf hp => exact Nat.le_refl 1
  | step f pid q m hf hp hq => exact Nat.le_add_left 1 m

theorem fixLoop_valid {files : List DriveFile} {root : String}
    (V : ValidForest files root) (D : Nat)
    (HD : ∀ f ∈ files, ∃ q n, PathAt files root f.id q n ∧ n ≤ D) :
    ∀ (fuel k : Nat) (t : PyDict) (rem : List DriveFile),
      LoopInv files root t rem k → D ≤ k + fuel + 1 →
      ∃ tF, fixLoop fuel t rem = some (.ok tF) ∧
        LoopInv files root tF [] (k + fuel) := by
  intro fuel
  induction fuel with
  | zero =>
    intro k t rem I hfuel
    cases rem with
    | nil =>
      refine ⟨t, by simp only [fixLoop], ?_⟩
      exact ⟨I.shape, I.nkeys, fun f hf _ => I.resolved f hf (List.not_mem_nil f),
        List.nil_sublist files, fun f hf => absurd hf (List.not_mem_nil f)⟩
    | cons f fs =>
      exfalso
      have hf : f ∈ files := I.sub.mem (List.mem_cons.2 (Or.inl rfl))
      rcases HD f hf with ⟨q, n, h, hle⟩
      have := I.deep f (List.mem_cons.2 (Or.inl rfl)) q n h
      omega
  | succ m ih =>
    intro k t rem I hfuel
    cases rem with
    | nil =>
      refine ⟨t, by simp only [fixLoop], ?_⟩
      exact ⟨I.shape, I.nkeys, fun f hf _ => I.resolved f hf (List.not_mem_nil f),
        List.nil_sublist files, fun f hf => absurd hf (List.not_mem_nil f)⟩
    | cons f fs =>
      rcases loopInv_step V I with ⟨rem2, hrm, I2⟩
      rcases ih (k + 1) (resolvePass t (f :: fs)).1 rem2 I2 (by omega) with
        ⟨tF, hloop, IF⟩
      refine ⟨tF, ?_, ?_⟩
      · simp only [fixLoop, hrm]
        exact hloop
      · have : k + 1 + m = k + (m + 1) := by omega
        rw [this] at IF
        exact IF

theorem valid_setup {files : List DriveFile} {root : String}
    (V : ValidForest files root) :
    ∃ es1 rmv1,
      rootPass [("/", root)] files = .ok (("/", root) :: es1, rmv1) ∧
      removeAll files rmv1 = .ok (files.filter (fun f => ¬ f ∈ rmv1)) ∧
      LoopInv files root (("/", root) :: es1)
        (files.filter (fun f => ¬ f ∈ rmv1)) 0 := by
  have hkeys0 : ((("/", root) :: ([] : PyDict)).map Prod.fst).Nodup := by simp
  rcases rootPass_fold_okspec V files (fun f hf => hf) [] []
      (fun kv hkv => absurd hkv (List.not_mem_nil kv)) hkeys0 with
    ⟨es2, rmv2, heq, hs2, hk2, hmono, hsub, hrc, hroot⟩
  have hfiles_nodup : files.Nodup := V.nodup_ids.of_map _
  refine ⟨es2, rmv2, ?_, ?_, ?_⟩
  · rw [rootPass, heq]
    simp
  · exact removeAll_of_sublist rmv2 files hfiles_nodup hsub
  · refine ⟨⟨es2, rfl, hs2⟩, hk2, ?_, List.filter_sublist files, ?_⟩
    · intro f hf hnot
      have hmem2 : f ∈ rmv2 := by
        by_contra hno
        exact hnot (List.mem_filter.2 ⟨hf, by simpa using hno⟩)
      exact hrc f hmem2
    · intro f hf q n h
      have hfr : f ∈ files := (List.mem_filter.1 hf).1
      have hnot2 : ¬ f ∈ rmv2 := by simpa using (List.mem_filter.1 hf).2
      rcases pathAt_inv h with ⟨g, hg, hgid, hcase⟩
      have hgf : g = f := ids_inj V.nodup_ids hg hfr hgid
      subst hgf
      rcases hcase with ⟨hp, _, hn1⟩ | ⟨pid, q2, m, hp, hq2, _, hnm⟩
      · exact absurd (hroot _ hfr hp) hnot2
      · have := pathAt_pos hq2
        omega

theorem valid_buildForward {files : List DriveFile} {root : String}
    (V : ValidForest files root) (D : Nat)
    (HD : ∀ f ∈ files, ∃ q n, PathAt files root f.id q n ∧ n ≤ D)
    (fuel : Nat) (hfuel : D ≤ fuel + 1) :
    ∃ t, buildForward fuel files = some (.ok t) ∧
      (∃ es, t = ("/", root) :: es ∧
        ∀ kv ∈ es, ∃ n, PathAt files root kv.1 kv.2 n) ∧
      (t.map Prod.fst).Nodup ∧
      (∀ f ∈ files, dictContains t f.id = true) := by
  rcases valid_setup V with ⟨es1, rmv1, hpass, hrm, I0⟩
  rcases fixLoop_valid V D HD fuel 0 (("/", root) :: es1)
      (files.filter (fun f => ¬ f ∈ rmv1)) I0 (by omega) with ⟨tF, hloop, IF⟩
  refine ⟨tF, ?_, IF.shape, IF.nkeys,
    fun f hf => IF.resolved f hf (List.not_mem_nil f)⟩
  simp only [buildForward, valid_rootScan V, head_dictGet,
    if_pos (valid_root_referenced V), hpass, hrm]
  exact hloop

/-! ### Path injectivity for separator-free names -/

theorem sep_decomp_unique :
    ∀ (l1 l2 m1 m2 : List Char), ('/' : Char) ∉ m1 → ('/' : Char) ∉ m2 →
      l1 ++ '/' :: m1 = l2 ++ '/' :: m2 → l1 = l2 ∧ m1 = m2 := by
  intro l1
  induction l1 with
  | nil =>
    intro l2 m1 m2 h1 h2 he
    cases l2 with
    | nil =>
      simp only [List.nil_append, List.cons.injEq] at he
      exact ⟨rfl, he.2⟩
    | cons c l2 =>
      simp only [List.nil_append, List.cons_append, List.cons.injEq] at he
      exfalso
      apply h1
      rw [he.2]
      exact List.mem_append.2 (Or.inr (List.mem_cons.2 (Or.inl rfl)))
  | cons c l1 ih =>
    intro l2 m1 m2 h1 h2 he
    cases l2 with
    | nil =>
      simp only [List.nil_append, List.cons_append, List.cons.injEq] at he
      exfalso
      apply h2
      rw [← he.2]
      exact List.mem_append.2 (Or.inr (List.mem_cons.2 (Or.inl rfl)))
    | cons c2 l2 =>
      simp only [List.cons_append, List.cons.injEq] at he
      rcases ih l2 m1 m2 h1 h2 he.2 with ⟨hl, hm⟩
      exact ⟨by rw [he.1, hl], hm⟩

theorem path_append_inj {q1 q2 n1 n2 : String}
    (h1 : ('/' : Char) ∉ n1.data) (h2 : ('/' : Char) ∉ n2.data)
    (he : q1 ++ "/" ++ n1 = q2 ++ "/" ++ n2) : q1 = q2 ∧ n1 = n2 := by
  have hd : q1.data ++ '/' :: n1.data = q2.data ++ '/' :: n2.data := by
    have := congrArg String.data he
    simpa [String.data_append] using this
  rcases sep_decomp_unique q1.data q2.data n1.data n2.data h1 h2 hd with ⟨hq, hn⟩
  constructor
  · cases q1; cases q2; exact congrArg String.mk (by simpa using hq)
  · cases n1; cases n2; exact congrArg String.mk (by simpa using hn)

theorem pathAt_slash_count {files : List DriveFile} {root : String}
    (SF : ∀ f ∈ files, ('/' : Char) ∉ f.name.data) :
    ∀ {i q n}, PathAt files root i q n → q.data.count '/' = n := by
  intro i q n h
  induction h with
  | base f hf hp =>
    have : ("/" ++ f.name).data = '/' :: f.name.data := by
      simp [String.data_append]
    rw [this, List.count_cons]
    rw [List.count_eq_zero_of_not_mem (SF f hf)]
    simp
  | step f pid q m hf hp hq ih =>
    have : (q ++ "/" ++ f.name).data = q.data ++ '/' :: f.name.data := by
      simp [String.data_append]
    rw [this, List.count_append, List.count_cons]
    rw [List.count_eq_zero_of_not_mem (SF f hf), ih]
    simp

theorem pathAt_inj {files : List DriveFile} {root : String}
    (SU : ∀ f ∈ files, ∀ g ∈ files,
      f.name = g.name → f.parents = g.parents → f.id = g.id)
    (SF : ∀ f ∈ files, ('/' : Char) ∉ f.name.data) :
    ∀ {i q n}, PathAt files root i q n →
      ∀ {j q' n'}, PathAt files root j q' n' → q = q' → i = j := by
  intro i q n h
  induction h with
  | base f hf hp =>
    intro j q' n' h' hqq
    cases h' with
    | base g hg hpg =>
      have hname : f.name = g.name := by
        have hd := congrArg String.data hqq
        simp only [String.data_append] at hd
        cases hn1 : f.name
        cases hn2 : g.name
        rw [hn1, hn2] at hd
        simp at hd
        exact congrArg String.mk hd
      exact SU f hf g hg hname (by rw [hp, hpg])
    | step g pid q2 m hg hpg hq2 =>
      exfalso
      have hc1 := pathAt_slash_count SF (PathAt.base f hf hp)
      have hc2 := pathAt_slash_count SF (PathAt.step g pid q2 m hg hpg hq2)
      rw [hqq] at hc1
      rw [hc1] at hc2
      have := pathAt_pos hq2
      omega
  | step f pid q2 m hf hp hq ih =>
    intro j q' n' h' hqq
    cases h' with
    | base g hg hpg =>
      exfalso
      have hc1 := pathAt_slash_count SF (PathAt.step f pid q2 m hf hp hq)
      have hc2 := pathAt_slash_count SF (PathAt.base g hg hpg)
      rw [hqq] at hc1
      rw [hc1] at hc2
      have := pathAt_pos hq
      omega
    | step g pid2 q3 m2 hg hpg hq3 =>
      rcases path_append_inj (SF f hf) (SF g hg) hqq with ⟨hq23, hname⟩
      have hpid : pid = pid2 := ih hq3 hq23
      exact SU f hf g hg hname (by rw [hp, hpg, hpid])

theorem valid_tree_get {files : List DriveFile} {root : String}
    (V : ValidForest files root) {es : PyDict}
    (hs : ∀ kv ∈ es, ∃ n, PathAt files root kv.1 kv.2 n)
    (hres : ∀ f ∈ files, dictContains (("/", root) :: es) f.id = true) :
    ∀ i p, dictGet (("/", root) :: es) i = some p ↔
      ((i = "/" ∧ p = root) ∨ ∃ n, PathAt files root i p n) := by
  intro i p
  constructor
  · intro hp
    by_cases hi : ("/", root).1 = i
    · left
      rw [dictGet, if_pos hi] at hp
      cases hp
      exact ⟨hi.symm, rfl⟩
    · right
      rw [dictGet_cons_ne hi] at hp
      exact hs (i, p) (dictGet_mem hp)
  · rintro (⟨rfl, rfl⟩ | ⟨n, h⟩)
    · exact head_dictGet _ es
    · have hiid : i ∈ collectIds files := pathAt_mem_ids h
      have hi : ¬ ("/", root).1 = i := by
        intro he
        have : ("/" : String) = i := he
        exact V.slash_not_id (this ▸ hiid)
      rcases List.mem_map.1 hiid with ⟨f, hf, hfid⟩
      have hcont := hres f hf
      rw [hfid] at hcont
      rcases (dictContains_dictGet _ _).1 hcont with ⟨v, hv⟩
      have hmem : (i, v) ∈ es := by
        rw [dictGet_cons_ne hi] at hv
        exact dictGet_mem hv
      rcases hs (i, v) hmem with ⟨n', h'⟩
      rcases pathAt_unique V.nodup_ids V.root_not_id h h' with ⟨hpv, _⟩
      rw [hv, hpv]

theorem invert_fold_get_ne (v : String) :
    ∀ (l acc : PyDict), (∀ kv ∈ l, kv.2 ≠ v) →
      dictGet (l.foldl (fun a kv => dictSet a kv.2 kv.1) acc) v = dictGet acc v := by
  intro l
  induction l with
  | nil => intro acc _; rfl
  | cons kv l ih =>
    intro acc hl
    rw [List.foldl_cons]
    rw [ih _ (fun x hx => hl x (List.mem_cons.2 (Or.inr hx)))]
    exact dictGet_dictSet_ne acc kv.1
      (fun he => hl kv (List.mem_cons.2 (Or.inl rfl)) he.symm)

theorem dictInvert_get_last {d d1 d2 : PyDict} {k v : String}
    (hd : d = d1 ++ (k, v) :: d2) (hpost : ∀ kv ∈ d2, kv.2 ≠ v) :
    dictGet (dictInvert d) v = some k := by
  subst hd
  rw [dictInvert, List.foldl_append, List.foldl_cons]
  rw [invert_fold_get_ne v d2 _ hpost]
  exact dictGet_dictSet_self _ v k

theorem valid_invert_get {files : List DriveFile} {root : String}
    (SU : ∀ f ∈ files, ∀ g ∈ files,
      f.name = g.name → f.parents = g.parents → f.id = g.id)
    (SF : ∀ f ∈ files, ('/' : Char) ∉ f.name.data) {es : PyDict}
    (hs : ∀ kv ∈ es, ∃ n, PathAt files root kv.1 kv.2 n)
    (hk : ((("/", root) :: es).map Prod.fst).Nodup) :
    ∀ i p, (i, p) ∈ es → dictGet (dictInvert (("/", root) :: es)) p = some i := by
  intro i p hmem
  rcases List.append_of_mem hmem with ⟨es1, es2, rfl⟩
  have hiasc : ("/", root) :: (es1 ++ (i, p) :: es2) =
      (("/", root) :: es1) ++ (i, p) :: es2 := by simp
  refine dictInvert_get_last hiasc ?_
  intro kv hkv hv
  rcases hs kv (List.mem_append.2 (Or.inr (List.mem_cons.2 (Or.inr hkv)))) with ⟨n', h'⟩
  rcases hs (i, p) (List.mem_append.2 (Or.inr (List.mem_cons.2 (Or.inl rfl)))) with ⟨n, h⟩
  have hkvi : kv.1 = i := pathAt_inj SU SF h' h hv
  have hknd : ((es1 ++ (i, p) :: es2).map Prod.fst).Nodup :=
    (List.nodup_cons.1 hk).2
  rw [List.map_append, List.map_cons] at hknd
  rcases List.nodup_append.1 hknd with ⟨_, hnd2, _⟩
  exact (List.nodup_cons.1 hnd2).1
    (hkvi ▸ List.mem_map.2 ⟨kv, hkv, rfl⟩)

/-- C4, amended. For every valid input — a single-rooted forest of depth
`≤ D` with one parent per record and unique sibling names — whose record
names are additionally free of the path separator `/` (and no record id is
the literal `"/"`), resolution terminates within `D` passes (any fuel with
`D ≤ fuel + 1` suffices) and the returned mapping contains a path entry for
every input record id.  Without the separator condition a name containing
`/` can make two ids collide on one path and a record is lost
(`c4_slash_name_loses_record`). -/
theorem c4_amended_terminates_covers (files : List DriveFile) (root : String)
    (D fuel : Nat) (V : ValidForest files root)
    (SU : ∀ f ∈ files, ∀ g ∈ files,
      f.name = g.name → f.parents = g.parents → f.id = g.id)
    (SF : ∀ f ∈ files, ('/' : Char) ∉ f.name.data)
    (HD : ∀ f ∈ files, ∃ q n, PathAt files root f.id q n ∧ n ≤ D)
    (hfuel : D ≤ fuel + 1) :
    ∃ m, build_directory_tree fuel files = some (.ok m) ∧
      ∀ f ∈ files, ∃ p, dictGet m p = some f.id := by
  rcases valid_buildForward V D HD fuel hfuel with ⟨t, hbf, ⟨es, rfl, hs⟩, hk, hres⟩
  refine ⟨dictInvert (("/", root) :: es), ?_, ?_⟩
  · rw [build_directory_tree, hbf]
    rfl
  · intro f hf
    have hcont := hres f hf
    rcases (dictContains_dictGet _ _).1 hcont with ⟨p, hp⟩
    have hfid : f.id ∈ collectIds files := List.mem_map.2 ⟨f, hf, rfl⟩
    have hi : ¬ ("/", root).1 = f.id := by
      intro he
      have : ("/" : String) = f.id := he
      exact V.slash_not_id (this ▸ hfid)
    have hmem : (f.id, p) ∈ es := by
      rw [dictGet_cons_ne hi] at hp
      exact dictGet_mem hp
    exact ⟨p, valid_invert_get SU SF hs hk f.id p hmem⟩

/-- Witness for C4 (amended): the two-record scenario, depth 2, fuel 1. -/
theorem c4_amended_terminates_covers_witness :
    ∃ m, build_directory_tree 1 exTwo = some (.ok m) ∧
      ∀ f ∈ exTwo, ∃ p, dictGet m p = some f.id := by
  refine c4_amended_terminates_covers exTwo "root" 2 1
    ⟨by decide, by decide, by decide, ?_, by decide⟩ (by decide) (by decide)
    ?_ (by omega)
  · intro f hf
    rcases List.mem_cons.1 hf with rfl | hf
    · exact ⟨_, _, PathAt.base _ (List.mem_cons.2 (Or.inl rfl)) rfl⟩
    rcases List.mem_cons.1 hf with rfl | hf
    · exact ⟨_, _, PathAt.step _ "1" ("/" ++ "Docs") 1
        (List.mem_cons.2 (Or.inr (List.mem_cons.2 (Or.inl rfl)))) rfl
        (PathAt.base ⟨"1", "Docs", ["root"]⟩ (List.mem_cons.2 (Or.inl rfl)) rfl)⟩
    · cases hf
  · intro f hf
    rcases List.mem_cons.1 hf with rfl | hf
    · exact ⟨_, _, PathAt.base _ (List.mem_cons.2 (Or.inl rfl)) rfl, by omega⟩
    rcases List.mem_cons.1 hf with rfl | hf
    · exact ⟨_, _, PathAt.step _ "1" ("/" ++ "Docs") 1
        (List.mem_cons.2 (Or.inr (List.mem_cons.2 (Or.inl rfl)))) rfl
        (PathAt.base ⟨"1", "Docs", ["root"]⟩ (List.mem_cons.2 (Or.inl rfl)) rfl),
        by omega⟩
    · cases hf

theorem pathAt_perm {files1 files2 : List DriveFile} {root : String}
    (hp : files1.Perm files2) :
    ∀ {i q n}, PathAt files1 root i q n → PathAt files2 root i q n := by
  intro i q n h
  induction h with
  | base f hf hpar => exact PathAt.base f (hp.mem_iff.1 hf) hpar
  | step f pid q m hf hpar hq ih => exact PathAt.step f pid q m (hp.mem_iff.1 hf) hpar ih

theorem validForest_perm {files1 files2 : List DriveFile} {root : String}
    (hp : files1.Perm files2) (V : ValidForest files1 root) :
    ValidForest files2 root := by
  have hids : (collectIds files1).Perm (collectIds files2) := hp.map _
  refine ⟨hids.nodup_iff.1 V.nodup_ids,
    fun h => V.root_not_id (hids.mem_iff.2 h),
    fun h => V.slash_not_id (hids.mem_iff.2 h), ?_, ?_⟩
  · intro f hf
    rcases V.reachable f (hp.mem_iff.2 hf) with ⟨q, n, h⟩
    exact ⟨q, n, pathAt_perm hp h⟩
  · intro he
    have hlen : files1.length = 0 := by rw [hp.length_eq, he]; rfl
    exact V.ne (List.eq_nil_of_length_eq_zero hlen)

/-- C7, amended. Permutation invariance holds on valid inputs: for two
permutations of the same record set forming a valid single-rooted forest
with unique sibling names free of `/`, both resolutions succeed and return
mappings with identical key-value pairs (equal lookups at every key).  On
invalid inputs it can fail: with duplicate siblings the surviving id depends
on the order (`c7_permutation_changes_result`). -/
theorem c7_amended_perm_invariance (files1 files2 : List DriveFile)
    (root : String) (D fuel1 fuel2 : Nat) (hperm : files1.Perm files2)
    (V : ValidForest files1 root)
    (SU : ∀ f ∈ files1, ∀ g ∈ files1,
      f.name = g.name → f.parents = g.parents → f.id = g.id)
    (SF : ∀ f ∈ files1, ('/' : Char) ∉ f.name.data)
    (HD : ∀ f ∈ files1, ∃ q n, PathAt files1 root f.id q n ∧ n ≤ D)
    (hfuel1 : D ≤ fuel1 + 1) (hfuel2 : D ≤ fuel2 + 1) :
    ∃ m1 m2, build_directory_tree fuel1 files1 = some (.ok m1) ∧
      build_directory_tree fuel2 files2 = some (.ok m2) ∧
      ∀ v, dictGet m1 v = dictGet m2 v := by
  have V2 : ValidForest files2 root := validForest_perm hperm V
  have SU2 : ∀ f ∈ files2, ∀ g ∈ files2,
      f.name = g.name → f.parents = g.parents → f.id = g.id :=
    fun f hf g hg => SU f (hperm.mem_iff.2 hf) g (hperm.mem_iff.2 hg)
  have SF2 : ∀ f ∈ files2, ('/' : Char) ∉ f.name.data :=
    fun f hf => SF f (hperm.mem_iff.2 hf)
  have HD2 : ∀ f ∈ files2, ∃ q n, PathAt files2 root f.id q n ∧ n ≤ D := by
    intro f hf
    rcases HD f (hperm.mem_iff.2 hf) with ⟨q, n, h, hn⟩
    exact ⟨q, n, pathAt_perm hperm h, hn⟩
  rcases valid_buildForward V D HD fuel1 hfuel1 with
    ⟨t1, hbf1, ⟨es1, rfl, hs1⟩, hk1, hres1⟩
  rcases valid_buildForward V2 D HD2 fuel2 hfuel2 with
    ⟨t2, hbf2, ⟨es2, rfl, hs2⟩, hk2, hres2⟩
  have hget1 := valid_tree_get V hs1 hres1
  have hget2 := valid_tree_get V2 hs2 hres2
  have hfe : ∀ i p, dictGet (("/", root) :: es1) i = some p ↔
      dictGet (("/", root) :: es2) i = some p := by
    intro i p
    rw [hget1, hget2]
    constructor
    · rintro (h | ⟨n, h⟩)
      · exact Or.inl h
      · exact Or.inr ⟨n, pathAt_perm hperm h⟩
    · rintro (h | ⟨n, h⟩)
      · exact Or.inl h
      · exact Or.inr ⟨n, pathAt_perm hperm.symm h⟩
  have hes_ne : ∀ {kv : String × String} {es : PyDict},
      ((("/", root) :: es).map Prod.fst).Nodup → kv ∈ es → ¬ kv.1 = "/" := by
    intro kv es hk hkv he
    exact (List.nodup_cons.1 hk).1 (he ▸ List.mem_map.2 ⟨kv, hkv, rfl⟩)
  have hmem_transfer : ∀ {i v : String}, (i, v) ∈ es1 → (i, v) ∈ es2 := by
    intro i v hmem
    have hne : ¬ ("/", root).1 = i := fun he => hes_ne hk1 hmem (by exact he.symm)
    have h1 : dictGet (("/", root) :: es1) i = some v := by
      exact dictGet_of_mem hk1 (List.mem_cons.2 (Or.inr hmem))
    have h2 := (hfe i v).1 h1
    rcases List.mem_cons.1 (dictGet_mem h2) with he | hm
    · cases he
      exact absurd rfl hne
    · exact hm
  have hmem_transfer2 : ∀ {i v : String}, (i, v) ∈ es2 → (i, v) ∈ es1 := by
    intro i v hmem
    have hne : ¬ ("/", root).1 = i := fun he => hes_ne hk2 hmem (by exact he.symm)
    have h2 : dictGet (("/", root) :: es2) i = some v :=
      dictGet_of_mem hk2 (List.mem_cons.2 (Or.inr hmem))
    have h1 := (hfe i v).2 h2
    rcases List.mem_cons.1 (dictGet_mem h1) with he | hm
    · cases he
      exact absurd rfl hne
    · exact hm
  refine ⟨dictInvert (("/", root) :: es1), dictInvert (("/", root) :: es2),
    by rw [build_directory_tree, hbf1]; rfl,
    by rw [build_directory_tree, hbf2]; rfl, ?_⟩
  intro v
  by_cases hA : ∃ kv ∈ es1, kv.2 = v
  · rcases hA with ⟨⟨i, v'⟩, hkv, hv⟩
    cases hv
    rw [valid_invert_get SU SF hs1 hk1 i v' hkv,
      valid_invert_get SU2 SF2 hs2 hk2 i v' (hmem_transfer hkv)]
  · have hB2 : ¬ ∃ kv ∈ es2, kv.2 = v := by
      rintro ⟨⟨i, v'⟩, hkv, hv⟩
      cases hv
      exact hA ⟨(i, v'), hmem_transfer2 hkv, rfl⟩
    by_cases hroot : v = root
    · subst hroot
      have hlast1 : dictGet (dictInvert (("/", v) :: es1)) v = some "/" := by
        refine dictInvert_get_last (show ("/", v) :: es1 = [] ++ ("/", v) :: es1 from rfl) ?_
        intro kv hkv hv
        exact hA ⟨kv, hkv, hv⟩
      have hlast2 : dictGet (dictInvert (("/", v) :: es2)) v = some "/" := by
        refine dictInvert_get_last (show ("/", v) :: es2 = [] ++ ("/", v) :: es2 from rfl) ?_
        intro kv hkv hv
        exact hB2 ⟨kv, hkv, hv⟩
      rw [hlast1, hlast2]
    · have hnone : ∀ (es : PyDict), (¬ ∃ kv ∈ es, kv.2 = v) →
          dictGet (dictInvert (("/", root) :: es)) v = none := by
        intro es hno
        cases hlook : dictGet (dictInvert (("/", root) :: es)) v with
        | none => rfl
        | some k =>
          exfalso
          have hmem := mem_dictInvert (dictGet_mem hlook)
          rcases List.mem_cons.1 hmem with he | hm
          · cases he
            exact hroot rfl
          · exact hno ⟨(k, v), hm, rfl⟩
      rw [hnone es1 hA, hnone es2 hB2]

/-- Witness for C7 (amended): the two-record scenario and its reversal give
identical mappings. -/
theorem c7_amended_perm_invariance_witness :
    ∃ m1 m2, build_directory_tree 1 exTwo = some (.ok m1) ∧
      build_directory_tree 1 exTwo.reverse = some (.ok m2) ∧
      ∀ v, dictGet m1 v = dictGet m2 v := by
  refine c7_amended_perm_invariance exTwo exTwo.reverse "root" 2 1 1
    (List.reverse_perm exTwo).symm
    ⟨by decide, by decide, by decide, ?_, by decide⟩ (by decide) (by decide)
    ?_ (by omega) (by omega)
  · intro f hf
    rcases List.mem_cons.1 hf with rfl | hf
    · exact ⟨_, _, PathAt.base _ (List.mem_cons.2 (Or.inl rfl)) rfl⟩
    rcases List.mem_cons.1 hf with rfl | hf
    · exact ⟨_, _, PathAt.step _ "1" ("/" ++ "Docs") 1
        (List.mem_cons.2 (Or.inr (List.mem_cons.2 (Or.inl rfl)))) rfl
        (PathAt.base ⟨"1", "Docs", ["root"]⟩ (List.mem_cons.2 (Or.inl rfl)) rfl)⟩
    · cases hf
  · intro f hf
    rcases List.mem_cons.1 hf with rfl | hf
    · exact ⟨_, _, PathAt.base _ (List.mem_cons.2 (Or.inl rfl)) rfl, by omega⟩
    rcases List.mem_cons.1 hf with rfl | hf
    · exact ⟨_, _, PathAt.step _ "1" ("/" ++ "Docs") 1
        (List.mem_cons.2 (Or.inr (List.mem_cons.2 (Or.inl rfl)))) rfl
        (PathAt.base ⟨"1", "Docs", ["root"]⟩ (List.mem_cons.2 (Or.inl rfl)) rfl),
        by omega⟩
    · cases hf

/-! ### Shape of the tree on arbitrary inputs -/

theorem foldlM_except_preserve_mem {α β : Type} (P : β → Prop) (l : List α)
    (step : β → α → Except PyError β)
    (hstep : ∀ b a b', a ∈ l → P b → step b a = .ok b' → P b') :
    ∀ (b b' : β), P b → l.foldlM step b = .ok b' → P b' := by
  induction l with
  | nil =>
    intro b b' hP h
    rw [List.foldlM_nil] at h
    cases h
    exact hP
  | cons x xs ih =>
    intro b b' hP h
    rw [List.foldlM_cons] at h
    cases hx : step b x with
    | error e => rw [hx] at h; cases h
    | ok b1 =>
      rw [hx] at h
      exact ih (fun b a b' ha => hstep b a b' (List.mem_cons.2 (Or.inr ha)))
        b1 b' (hstep b x b1 (List.mem_cons.2 (Or.inl rfl)) hP hx) h

theorem foldl_preserve_mem {α β : Type} (P : β → Prop) (l : List α)
    (step : β → α → β)
    (hstep : ∀ b a, a ∈ l → P b → P (step b a)) :
    ∀ (b : β), P b → P (l.foldl step b) := by
  induction l with
  | nil => intro b hP; exact hP
  | cons x xs ih =>
    intro b hP
    rw [List.foldl_cons]
    exact ih (fun b a ha => hstep b a (List.mem_cons.2 (Or.inr ha)))
      (step b x) (hstep b x (List.mem_cons.2 (Or.inl rfl)) hP)

theorem str_length_pos {s : String} (h : s ≠ "") : 1 ≤ s.length := by
  cases s with
  | mk data =>
    cases data with
    | nil => exact absurd rfl h
    | cons c cs => simp [String.length]

theorem slash_ne_of_no_slash {s : String} (h : ('/' : Char) ∉ s.data) :
    ¬ s = "/" := by
  intro he
  subst he
  exact h (List.mem_cons.2 (Or.inl rfl))

theorem removeAll_subset {rem rmv rem2 : List DriveFile}
    (h : removeAll rem rmv = .ok rem2) : ∀ x ∈ rem2, x ∈ rem := by
  refine foldlM_except_preserve (fun r => ∀ x ∈ r, x ∈ rem) _ ?_ rmv rem rem2
    (fun x hx => hx) h
  intro b a b' hb hstep
  by_cases ha : a ∈ b
  · rw [if_pos ha] at hstep
    cases hstep
    exact fun x hx => hb x (List.mem_of_mem_erase hx)
  · rw [if_neg ha] at hstep
    cases hstep

theorem rootScan_single {parent_ids ids : List String} {x : String} {t' : PyDict}
    (h : rootScan [("/", x)] parent_ids ids = .ok t') :
    ∃ y, t' = [("/", y)] := by
  refine foldlM_except_preserve (fun t => ∃ y, t = [("/", y)]) _ ?_ parent_ids
    [("/", x)] t' ⟨x, rfl⟩ h
  intro b a b' hb hstep
  by_cases hmem : a ∈ ids
  · rw [if_pos hmem] at hstep
    cases hstep
    exact hb
  · rw [if_neg hmem] at hstep
    rcases hb with ⟨y, rfl⟩
    simp only [show dictGet [("/", y)] "/" = some y from head_dictGet y []] at hstep
    by_cases hlen : y.length = 0
    · rw [if_pos hlen] at hstep
      cases hstep
      exact ⟨a, rfl⟩
    · rw [if_neg hlen] at hstep
      by_cases hne : y ≠ a
      · rw [if_pos hne] at hstep
        cases hstep
      · rw [if_neg hne] at hstep
        cases hstep
        exact ⟨y, rfl⟩

theorem detectRoot_ok_inv {files : List DriveFile} {r : String}
    (h : detectRoot files = .ok r) :
    rootScan [("/", "")] (collectParentIds files) (collectIds files) =
      .ok [("/", r)] := by
  rw [detectRoot] at h
  cases hscan : rootScan [("/", "")] (collectParentIds files) (collectIds files) with
  | error e => rw [hscan] at h; cases h
  | ok tree0 =>
    rcases rootScan_single hscan with ⟨y, rfl⟩
    simp only [hscan,
      show dictGet [("/", y)] "/" = some y from head_dictGet y []] at h
    cases h
    rfl

theorem shape_dictSet {files : List DriveFile} {r : String} {t : PyDict}
    {f : DriveFile} (hsh : RootedShape files r t) (hf : f ∈ files)
    (hid : ('/' : Char) ∉ f.id.data) {v : String}
    (hv1 : ('/' : Char) ∈ v.data) (hv2 : 2 ≤ v.length) :
    RootedShape files r (dictSet t f.id v) := by
  rcases hsh with ⟨es, rfl, hes⟩
  rw [dictSet_cons_ne r v es (slash_ne_of_no_slash hid)]
  refine ⟨dictSet es f.id v, rfl, ?_⟩
  intro kv hkv
  rcases mem_dictSet hkv with rfl | hmem
  · exact ⟨⟨f, hf, rfl⟩, hv1, hv2⟩
  · exact hes kv hmem

theorem rootPass_value_slash (nm : String) : ('/' : Char) ∈ ("/" ++ nm).data := by
  rw [String.data_append]
  exact List.mem_append.2 (Or.inl (List.mem_cons.2 (Or.inl rfl)))

theorem rootPass_value_len {nm : String} (h : nm ≠ "") :
    2 ≤ ("/" ++ nm).length := by
  rw [String.length_append]
  have := str_length_pos h
  have hs : ("/" : String).length = 1 := rfl
  omega

theorem step_value_slash (q nm : String) : ('/' : Char) ∈ (q ++ "/" ++ nm).data := by
  rw [String.data_append, String.data_append]
  exact List.mem_append.2 (Or.inl (List.mem_append.2 (Or.inr (List.mem_cons.2 (Or.inl rfl)))))

theorem step_value_len {nm : String} (q : String) (h : nm ≠ "") :
    2 ≤ (q ++ "/" ++ nm).length := by
  rw [String.length_append, String.length_append]
  have := str_length_pos h
  have hs : ("/" : String).length = 1 := rfl
  omega

theorem rootPass_shape {files : List DriveFile} {r : String}
    (hnames : ∀ f ∈ files, f.name ≠ "")
    (hids : ∀ f ∈ files, ('/' : Char) ∉ f.id.data)
    {t1 : PyDict} {rmv : List DriveFile}
    (h : rootPass [("/", r)] files = .ok (t1, rmv)) :
    RootedShape files r t1 := by
  have := foldlM_except_preserve_mem
    (fun acc : PyDict × List DriveFile => RootedShape files r acc.1) files
    _ ?_ ([("/", r)], []) (t1, rmv) ⟨[], rfl, fun kv hkv => absurd hkv (List.not_mem_nil kv)⟩ h
  · exact this
  · intro b a b' ha hb hstep
    cases hpar : a.parents with
    | nil =>
      rw [hpar] at hstep
      exact Except.noConfusion hstep
    | cons p rest =>
      simp only [hpar] at hstep
      cases hget : dictGet b.1 "/" with
      | none =>
        simp only [hget] at hstep
        exact Except.noConfusion hstep
      | some rr =>
        simp only [hget] at hstep
        by_cases hpr : p = rr
        · rw [if_pos hpr] at hstep
          cases hstep
          exact shape_dictSet hb ha (hids a ha)
            (rootPass_value_slash a.name) (rootPass_value_len (hnames a ha))
        · rw [if_neg hpr] at hstep
          cases hstep
          exact hb

theorem resolvePass_shape {files : List DriveFile} {r : String}
    {rem : List DriveFile}
    (hrem : ∀ f ∈ rem, f ∈ files)
    (hnames : ∀ f ∈ files, f.name ≠ "")
    (hids : ∀ f ∈ files, ('/' : Char) ∉ f.id.data)
    {t : PyDict} (hsh : RootedShape files r t) :
    RootedShape files r (resolvePass t rem).1 := by
  rw [resolvePass]
  refine foldl_preserve_mem
    (fun acc : PyDict × List DriveFile => RootedShape files r acc.1) rem
    _ ?_ (t, []) hsh
  intro b a ha hb
  refine foldl_preserve
    (fun acc : PyDict × List DriveFile => RootedShape files r acc.1)
    _ ?_ a.parents b hb
  intro b2 p hb2
  cases hget : dictGet b2.1 p with
  | none => simpa [hget] using hb2
  | some q =>
    simp only [hget]
    exact shape_dictSet hb2 (hrem a ha) (hids a (hrem a ha))
      (step_value_slash q a.name) (step_value_len q (hnames a (hrem a ha)))

theorem fixLoop_shape {files : List DriveFile} {r : String}
    (hnames : ∀ f ∈ files, f.name ≠ "")
    (hids : ∀ f ∈ files, ('/' : Char) ∉ f.id.data) :
    ∀ (fuel : Nat) (t : PyDict) (rem : List DriveFile) (t' : PyDict),
      (∀ f ∈ rem, f ∈ files) → RootedShape files r t →
      fixLoop fuel t rem = some (.ok t') → RootedShape files r t' := by
  intro fuel
  induction fuel with
  | zero =>
    intro t rem t' hrem hsh h
    cases rem with
    | nil =>
      simp only [fixLoop] at h
      cases h
      exact hsh
    | cons f fs =>
      simp only [fixLoop] at h
      cases h
  | succ n ih =>
    intro t rem t' hrem hsh h
    cases rem with
    | nil =>
      simp only [fixLoop] at h
      cases h
      exact hsh
    | cons f fs =>
      simp only [fixLoop] at h
      cases hrm : removeAll (f :: fs) (resolvePass t (f :: fs)).2 with
      | error e => rw [hrm] at h; cases h
      | ok rem2 =>
        rw [hrm] at h
        exact ih _ rem2 t'
          (fun g hg => hrem g (removeAll_subset hrm g hg))
          (resolvePass_shape hrem hnames hids hsh) h

theorem buildForward_shape {files : List DriveFile} {r : String} {fuel : Nat}
    {t : PyDict}
    (hr : detectRoot files = .ok r)
    (hnames : ∀ f ∈ files, f.name ≠ "")
    (hids : ∀ f ∈ files, ('/' : Char) ∉ f.id.data)
    (h : buildForward fuel files = some (.ok t)) :
    RootedShape files r t := by
  simp only [buildForward, detectRoot_ok_inv hr,
    show dictGet [("/", r)] "/" = some r from head_dictGet r []] at h
  by_cases hmem : r ∈ collectParentIds files
  · rw [if_pos hmem] at h
    cases hpass : rootPass [("/", r)] files with
    | error e => simp only [hpass] at h; simp at h
    | ok pr =>
      simp only [hpass] at h
      cases pr with
      | mk t2 rmv =>
        cases hrm : removeAll files rmv with
        | error e => simp only [hrm] at h; simp at h
        | ok remainder =>
          simp only [hrm] at h
          exact fixLoop_shape hnames hids fuel t2 remainder t
            (fun g hg => removeAll_subset hrm g hg)
            (rootPass_shape hnames hids hpass) h
  · rw [if_neg hmem] at h
    cases h

theorem build_ok_inv {fuel : Nat} {files : List DriveFile} {out : PyDict}
    (h : build_directory_tree fuel files = some (.ok out)) :
    ∃ t, buildForward fuel files = some (.ok t) ∧ out = dictInvert t := by
  rw [build_directory_tree] at h
  cases hb : buildForward fuel files with
  | none => rw [hb] at h; cases h
  | some e =>
    rw [hb] at h
    cases e with
    | error e => simp [Except.map] at h
    | ok t =>
      simp only [Option.map_some', Except.map] at h
      cases h
      exact ⟨t, rfl, rfl⟩

/-- C9, amended. For every successful resolution of an input whose
record names are nonempty, whose record ids contain no `/`, and whose
detected root id contains no `/`: the root entry has the opposite
orientation from all others — the root id is a key mapping to `"/"`, every
other entry maps a slash-containing path (never the bare `"/"`) to a record
id, and `"/"` itself is never a key.  Dropping the name condition breaks
the claim: an empty name puts the key `"/"` in the mapping
(`c9_slash_key_on_empty_name`). -/
theorem c9_amended_orientation (files : List DriveFile) (fuel : Nat)
    (r : String) (out : PyDict)
    (hr : detectRoot files = .ok r)
    (hrs : ('/' : Char) ∉ r.data)
    (hnames : ∀ f ∈ files, f.name ≠ "")
    (hids : ∀ f ∈ files, ('/' : Char) ∉ f.id.data)
    (hok : build_directory_tree fuel files = some (.ok out)) :
    dictGet out r = some "/" ∧
    dictGet out "/" = none ∧
    (∀ k v, dictGet out k = some v →
      (k = r ∧ v = "/") ∨
      (∃ f ∈ files, v = f.id ∧ ('/' : Char) ∈ k.data ∧ k ≠ "/")) := by
  rcases build_ok_inv hok with ⟨t, hbf, rfl⟩
  rcases buildForward_shape hr hnames hids hbf with ⟨es, rfl, hes⟩
  have hslash_len : ("/" : String).length = 1 := rfl
  refine ⟨?_, ?_, ?_⟩
  · refine dictInvert_get_last
      (show ("/", r) :: es = [] ++ ("/", r) :: es from rfl) ?_
    intro kv hkv he
    exact hrs (he ▸ (hes kv hkv).2.1)
  · cases hlook : dictGet (dictInvert (("/", r) :: es)) "/" with
    | none => rfl
    | some k =>
      exfalso
      rcases List.mem_cons.1 (mem_dictInvert (dictGet_mem hlook)) with he | hm
      · have hrr : r = "/" := (congrArg Prod.snd he).symm
        subst hrr
        exact hrs (List.mem_cons.2 (Or.inl rfl))
      · have := (hes (k, "/") hm).2.2
        rw [hslash_len] at this
        omega
  · intro k v hkv
    rcases List.mem_cons.1 (mem_dictInvert (dictGet_mem hkv)) with he | hm
    · left
      exact ⟨(congrArg Prod.snd he : k = r), (congrArg Prod.fst he : v = "/")⟩
    · right
      rcases hes (v, k) hm with ⟨⟨f, hf, hvid⟩, hkslash, hklen⟩
      refine ⟨f, hf, hvid, hkslash, ?_⟩
      intro he
      rw [he, hslash_len] at hklen
      omega

/-- Witness for C9 (amended): the two-record scenario — `"root"` maps to
`"/"` and `"/"` is not a key. -/
theorem c9_amended_orientation_witness :
    dictGet [("root", "/"), ("/Docs", "1"), ("/Docs/Templates", "2")] "root" =
        some "/" ∧
    dictGet [("root", "/"), ("/Docs", "1"), ("/Docs/Templates", "2")] "/" = none :=
  ⟨(c9_amended_orientation exTwo 2 "root"
      [("root", "/"), ("/Docs", "1"), ("/Docs/Templates", "2")]
      rfl (by decide) (by decide) (by decide) rfl).1,
   (c9_amended_orientation exTwo 2 "root"
      [("root", "/"), ("/Docs", "1"), ("/Docs/Templates", "2")]
      rfl (by decide) (by decide) (by decide) rfl).2.1⟩
